import Mathlib

namespace HMV

/-! Shallow embedding of the two hash map implementations of this repository:
hash_map_sc.py (separate chaining) and hash_map_oa.py (open addressing with
quadratic probing).  Values are an arbitrary type V, keys are strings, and the
hash function is injected at construction, as in the source.  Python while
loops without a structural bound are embedded with an explicit fuel argument;
a result of none means the loop did not return within the fuel, every
other outcome is reported as some.  Load factor comparisons, written in the
source as real divisions (size / capacity >= 0.5 and so on), are embedded as
the equivalent integer comparisons (2 * size >= capacity and so on); the
quantities involved are small enough that the Python float comparison agrees
with the exact rational one. -/

/-- Trial division loop of HashMap._is_prime (the method is identical in both
source files): factor runs over 3, 5, 7, ... while factor * factor <= capacity.
The loop runs fewer than capacity steps, so fuel capacity + 1 always
suffices and the fuel-exhausted branch is never taken. -/
def is_primeLoop (capacity : Nat) : Nat → Nat → Bool
  | 0, _ => true
  | fuel + 1, factor =>
    if factor * factor ≤ capacity then
      if capacity % factor == 0 then false
      else is_primeLoop capacity fuel (factor + 2)
    else true

/-- HashMap._is_prime from the source. -/
def is_prime (capacity : Nat) : Bool :=
  if capacity == 2 || capacity == 3 then true
  else if capacity == 1 || capacity % 2 == 0 then false
  else is_primeLoop capacity (capacity + 1) 3

/-- Odd candidate scan of HashMap._next_prime: step by 2 while the candidate
is not prime.  For an odd start c the Bertrand postulate bounds the least odd
prime at or above c by 2 * c + 1, so fuel c + 2 always suffices and the
fuel-exhausted branch is never taken. -/
def next_primeLoop : Nat → Nat → Nat
  | 0, c => c
  | fuel + 1, c => if is_prime c then c else next_primeLoop fuel (c + 2)

/-- HashMap._next_prime from the source: force the candidate odd, then scan
upward in steps of two until a prime is found. -/
def next_prime (capacity : Nat) : Nat :=
  if capacity % 2 == 0 then next_primeLoop (capacity + 1 + 2) (capacity + 1)
  else next_primeLoop (capacity + 2) capacity

/-! Separate chaining table, from hash_map_sc.py.  The DynamicArray collaborator
is embedded as a Lean list.  The LinkedList collaborator is not under src/;
it is modelled from the spec. -/

/-- A table that resolves collisions by separate chaining.  The buckets field
is the DynamicArray of chains, capacity and size mirror the private fields of
the source class, and hash is the injected hash function. -/
structure SCMap (V : Type) where
  buckets : List (List (String × V))
  capacity : Nat
  size : Nat
  hash : String → Nat

/-- Modelled from the spec: LinkedList.contains of the missing a6_include
module, a forward scan of the chain returning the first node with the given
key (here, its value). -/
def bucketFind {V : Type} : List (String × V) → String → Option V
  | [], _ => none
  | (k', v) :: rest, k => if k' == k then some v else bucketFind rest k

/-- Overwriting the value of the node returned by LinkedList.contains, as
HashMap.put of hash_map_sc.py does: the first node with the given key keeps
its key and receives the new value. -/
def bucketReplace {V : Type} : List (String × V) → String → V → List (String × V)
  | [], _, _ => []
  | (k', v') :: rest, k, v =>
    if k' == k then (k', v) :: rest else (k', v') :: bucketReplace rest k v

/-- Modelled from the spec: LinkedList.remove of the missing a6_include
module unlinks the first node with the given key. -/
def bucketRemove {V : Type} : List (String × V) → String → List (String × V)
  | [], _ => []
  | (k', v') :: rest, k => if k' == k then rest else (k', v') :: bucketRemove rest k

/-- Total number of stored nodes; HashMap.table_load of hash_map_sc.py sums
the lengths of the non-empty chains, which equals this sum. -/
def sumLen {V : Type} (buckets : List (List (String × V))) : Nat :=
  (buckets.map List.length).sum

/-- HashMap.__init__ of hash_map_sc.py: capacity is normalized by
_next_prime and the buckets array is filled with empty chains. -/
def initSC {V : Type} (capacity : Nat) (hash : String → Nat) : SCMap V :=
  ⟨List.replicate (next_prime capacity) [], next_prime capacity, 0, hash⟩

/-- HashMap.get of hash_map_sc.py. -/
def getSC {V : Type} (m : SCMap V) (k : String) : Option V :=
  (m.buckets.get? (m.hash k % m.capacity)).bind (fun chain => bucketFind chain k)

/-- HashMap.contains_key of hash_map_sc.py. -/
def contains_keySC {V : Type} (m : SCMap V) (k : String) : Bool :=
  ((m.buckets.get? (m.hash k % m.capacity)).bind (fun chain => bucketFind chain k)).isSome

/-- HashMap.table_load of hash_map_sc.py, as an exact rational. -/
def table_loadSC {V : Type} (m : SCMap V) : ℚ :=
  (sumLen m.buckets : ℚ) / (m.capacity : ℚ)

/-- Doubling loop of HashMap.resize_table of hash_map_sc.py: while
size / p_capacity > 1 (that is, while p_capacity < size), double and
re-normalize to a prime.  The candidate grows by at least one per step, so
fuel size + 1 always suffices and the fuel-exhausted branch is never taken. -/
def growLoopF : Nat → Nat → Nat → Nat
  | 0, _, p => p
  | fuel + 1, size, p => if p < size then growLoopF fuel size (next_prime (2 * p)) else p

/-- One step of the rehash loop of HashMap.resize_table of hash_map_sc.py:
append the pair to the chain of its new bucket (spec: chain insert appends,
chain order is insertion order). -/
def scatterPair {V : Type} (hash : String → Nat) (p : Nat)
    (bs : List (List (String × V))) (kv : String × V) : List (List (String × V)) :=
  bs.set (hash kv.1 % p) (((bs.get? (hash kv.1 % p)).getD []) ++ [kv])

/-- HashMap.resize_table of hash_map_sc.py: silent no-op below 1, prime
normalization, doubling loop while the load would exceed 1, then a full
rehash by direct chain inserts, with size recounted from the moved nodes. -/
def resizeSC {V : Type} (m : SCMap V) (n : Nat) : SCMap V :=
  if n < 1 then m
  else
    let p0 := if is_prime n then n else next_prime n
    let p := growLoopF (m.size + 1) m.size p0
    let newBuckets := m.buckets.foldl
      (fun acc chain => chain.foldl (scatterPair m.hash p) acc)
      (List.replicate p [])
    ⟨newBuckets, p, sumLen m.buckets, m.hash⟩

/-- HashMap.put of hash_map_sc.py: resize to twice the capacity when the load
factor reaches 1 (the source compares size / capacity >= 1 on floats, which
for a positive capacity is the integer test capacity <= number of nodes),
then overwrite in place when get finds the key, else append a fresh entry. -/
def putSC {V : Type} (m : SCMap V) (k : String) (v : V) : SCMap V :=
  let m1 := if m.capacity ≤ sumLen m.buckets then resizeSC m (2 * m.capacity) else m
  let i := m1.hash k % m1.capacity
  if (getSC m1 k).isSome then
    { m1 with buckets := m1.buckets.set i (bucketReplace ((m1.buckets.get? i).getD []) k v) }
  else
    { m1 with
        buckets := m1.buckets.set i (((m1.buckets.get? i).getD []) ++ [(k, v)])
        size := m1.size + 1 }

/-- HashMap.remove of hash_map_sc.py. -/
def removeSC {V : Type} (m : SCMap V) (k : String) : SCMap V :=
  if contains_keySC m k then
    { m with
        buckets := m.buckets.set (m.hash k % m.capacity)
          (bucketRemove ((m.buckets.get? (m.hash k % m.capacity)).getD []) k)
        size := m.size - 1 }
  else m

/-- HashMap.clear of hash_map_sc.py. -/
def clearSC {V : Type} (m : SCMap V) : SCMap V :=
  { m with buckets := List.replicate m.capacity [], size := 0 }

/-! Open addressing table, from hash_map_oa.py. -/

/-- The HashEntry class of the missing a6_include module, modelled from the
spec: key, opaque value, and a tombstone flag. -/
structure HashEntry (V : Type) where
  key : String
  value : V
  is_tombstone : Bool

/-- A table that resolves collisions by quadratic probing.  A slot of the
buckets array is none (Python None) or an entry, possibly tombstoned. -/
structure OAMap (V : Type) where
  buckets : List (Option (HashEntry V))
  capacity : Nat
  size : Nat
  hash : String → Nat

/-- The probe sequence shared by every loop of hash_map_oa.py: the slot
inspected at step j is (index + j * j) % capacity, j = 0, 1, 2, ... -/
def probeIdx (i cap j : Nat) : Nat := (i + j * j) % cap

/-- Probe loop of HashMap.get of hash_map_oa.py.  A some none result is the
Python return None on reaching an empty slot; some (some v) is a found value;
none means the while loop did not return within the fuel (this also covers
an out-of-range bucket index, which cannot occur when the buckets array has
length capacity). -/
def getLoop {V : Type} (m : OAMap V) (k : String) (i : Nat) : Nat → Nat → Option (Option V)
  | 0, _ => none
  | fuel + 1, j =>
    match m.buckets.get? (probeIdx i m.capacity j) with
    | none => none
    | some none => some none
    | some (some e) =>
      if e.key == k && !e.is_tombstone then some (some e.value)
      else getLoop m k i fuel (j + 1)

/-- Probe loop of HashMap.contains_key of hash_map_oa.py. -/
def containsLoop {V : Type} (m : OAMap V) (k : String) (i : Nat) : Nat → Nat → Option Bool
  | 0, _ => none
  | fuel + 1, j =>
    match m.buckets.get? (probeIdx i m.capacity j) with
    | none => none
    | some none => some false
    | some (some e) =>
      if e.key == k && !e.is_tombstone then some true
      else containsLoop m k i fuel (j + 1)

/-- Probe loop of HashMap.remove of hash_map_oa.py: on the first slot whose
entry carries the key, tombstone it and decrement size unless it is already
a tombstone; an empty slot ends the scan with no change. -/
def removeLoop {V : Type} (m : OAMap V) (k : String) (i : Nat) : Nat → Nat → Option (OAMap V)
  | 0, _ => none
  | fuel + 1, j =>
    match m.buckets.get? (probeIdx i m.capacity j) with
    | none => none
    | some none => some m
    | some (some e) =>
      if e.key == k then
        if e.is_tombstone then some m
        else some { m with
            buckets := m.buckets.set (probeIdx i m.capacity j)
              (some { e with is_tombstone := true })
            size := m.size - 1 }
      else removeLoop m k i fuel (j + 1)

/-- Key-exists branch of HashMap.put of hash_map_oa.py: probe for the first
slot whose entry carries the key (the tombstone flag is not consulted) and
overwrite its value.  A none slot would raise AttributeError in Python;
that outcome is reported as none, like fuel exhaustion. -/
def putOverLoop {V : Type} (m : OAMap V) (k : String) (v : V) (i : Nat) :
    Nat → Nat → Option (OAMap V)
  | 0, _ => none
  | fuel + 1, j =>
    match m.buckets.get? (probeIdx i m.capacity j) with
    | none => none
    | some none => none
    | some (some e) =>
      if e.key == k then
        some { m with buckets := m.buckets.set (probeIdx i m.capacity j) (some { e with value := v }) }
      else putOverLoop m k v i fuel (j + 1)

/-- Insert branch of HashMap.put of hash_map_oa.py: probe for the first
empty or tombstoned slot, place a fresh entry there and increment size. -/
def putInsLoop {V : Type} (m : OAMap V) (k : String) (v : V) (i : Nat) :
    Nat → Nat → Option (OAMap V)
  | 0, _ => none
  | fuel + 1, j =>
    match m.buckets.get? (probeIdx i m.capacity j) with
    | none => none
    | some none =>
      some { m with
          buckets := m.buckets.set (probeIdx i m.capacity j) (some ⟨k, v, false⟩)
          size := m.size + 1 }
    | some (some e) =>
      if e.is_tombstone then
        some { m with
            buckets := m.buckets.set (probeIdx i m.capacity j) (some ⟨k, v, false⟩)
            size := m.size + 1 }
      else putInsLoop m k v i fuel (j + 1)

/-- HashMap.contains_key of hash_map_oa.py. -/
def containsF {V : Type} (fuel : Nat) (m : OAMap V) (k : String) : Option Bool :=
  containsLoop m k (m.hash k % m.capacity) fuel 0

/-- HashMap.put and HashMap.resize_table of hash_map_oa.py are mutually
recursive: put may trigger a resize, and resize re-inserts every live entry
through put.  Both are defined together by structural recursion on fuel;
each call across the pair consumes one unit.  The put component first
resizes to twice the capacity when the load factor reaches one half (the
float test size / capacity >= 0.5 equals the integer test
capacity <= 2 * size for a positive capacity), then branches on
contains_key exactly as the source does.  The resize component is a silent
no-op when new_capacity < size; otherwise it normalizes the capacity to a
prime, installs a fresh all-empty array, and re-inserts every live entry of
the saved old array in order through put. -/
def oaOps (V : Type) : Nat →
    (OAMap V → String → V → Option (OAMap V)) × (OAMap V → Nat → Option (OAMap V))
  | 0 => (fun _ _ _ => none, fun _ _ => none)
  | fuel + 1 =>
    ( fun m k v =>
        (if m.capacity ≤ 2 * m.size then (oaOps V fuel).2 m (2 * m.capacity) else some m).bind
          fun m1 =>
            (containsF (fuel + 1) m1 k).bind fun b =>
              if b then putOverLoop m1 k v (m1.hash k % m1.capacity) (fuel + 1) 0
              else putInsLoop m1 k v (m1.hash k % m1.capacity) (fuel + 1) 0,
      fun m n =>
        if n < m.size then some m
        else
          let p := if is_prime n then n else next_prime n
          m.buckets.foldlM
            (fun acc slot =>
              match slot with
              | some e =>
                if e.is_tombstone then some acc else (oaOps V fuel).1 acc e.key e.value
              | none => some acc)
            ⟨List.replicate p none, p, 0, m.hash⟩ )

/-- HashMap.put of hash_map_oa.py (fuel-indexed). -/
def putF {V : Type} (fuel : Nat) (m : OAMap V) (k : String) (v : V) : Option (OAMap V) :=
  (oaOps V fuel).1 m k v

/-- HashMap.resize_table of hash_map_oa.py (fuel-indexed). -/
def resizeF {V : Type} (fuel : Nat) (m : OAMap V) (n : Nat) : Option (OAMap V) :=
  (oaOps V fuel).2 m n

/-- Re-insertion loop of HashMap.resize_table of hash_map_oa.py over the
saved old buckets array. -/
def reinsertF {V : Type} (fuel : Nat) (slots : List (Option (HashEntry V)))
    (acc : OAMap V) : Option (OAMap V) :=
  slots.foldlM
    (fun acc slot =>
      match slot with
      | some e => if e.is_tombstone then some acc else putF fuel acc e.key e.value
      | none => some acc)
    acc

/-- HashMap.get of hash_map_oa.py (fuel-indexed). -/
def getF {V : Type} (fuel : Nat) (m : OAMap V) (k : String) : Option (Option V) :=
  getLoop m k (m.hash k % m.capacity) fuel 0

/-- HashMap.remove of hash_map_oa.py (fuel-indexed). -/
def removeF {V : Type} (fuel : Nat) (m : OAMap V) (k : String) : Option (OAMap V) :=
  removeLoop m k (m.hash k % m.capacity) fuel 0

/-- HashMap.clear of hash_map_oa.py. -/
def clearOA {V : Type} (m : OAMap V) : OAMap V :=
  ⟨List.replicate m.capacity none, m.capacity, 0, m.hash⟩

/-- HashMap.__init__ of hash_map_oa.py. -/
def initOA {V : Type} (capacity : Nat) (hash : String → Nat) : OAMap V :=
  ⟨List.replicate (next_prime capacity) none, next_prime capacity, 0, hash⟩

/-- HashMap.table_load of hash_map_oa.py, as an exact rational. -/
def table_loadOA {V : Type} (m : OAMap V) : ℚ :=
  (m.size : ℚ) / (m.capacity : ℚ)

/-! Operation sequences over the public mutating interface, used to express
the states reachable from construction. -/

/-- A public mutating operation. -/
inductive Op (V : Type) where
  | put (k : String) (v : V)
  | remove (k : String)
  | resize (n : Nat)
  | clear

/-- Apply one operation to a chaining table. -/
def applySC {V : Type} (m : SCMap V) : Op V → SCMap V
  | .put k v => putSC m k v
  | .remove k => removeSC m k
  | .resize n => resizeSC m n
  | .clear => clearSC m

/-- Run a sequence of operations on a chaining table. -/
def execSC {V : Type} (m : SCMap V) (ops : List (Op V)) : SCMap V :=
  ops.foldl applySC m

/-- Apply one operation to a probing table, with the given fuel. -/
def applyOA {V : Type} (fuel : Nat) (m : OAMap V) : Op V → Option (OAMap V)
  | .put k v => putF fuel m k v
  | .remove k => removeF fuel m k
  | .resize n => resizeF fuel m n
  | .clear => some (clearOA m)

/-- Run a sequence of operations on a probing table, with the given fuel per
operation; none when some operation failed to return within the fuel. -/
def execOA {V : Type} (fuel : Nat) (m : OAMap V) (ops : List (Op V)) : Option (OAMap V) :=
  ops.foldlM (applyOA fuel) m

/-- A chaining table state reachable from construction through the public
interface. -/
def ReachSC {V : Type} (m : SCMap V) : Prop :=
  ∃ capacity hash ops, execSC (initSC capacity hash) ops = m

/-- A probing table state reachable from construction through the public
interface (within some fuel, that is, by operations that all returned). -/
def ReachOA {V : Type} (m : OAMap V) : Prop :=
  ∃ capacity hash ops fuel, execOA fuel (initOA capacity hash) ops = some m

/-! Observation helpers for proofs about the probing table. -/

/-- The value of the first live (non-tombstoned) entry with the given key in
array order, if any. -/
def findLive {V : Type} : List (Option (HashEntry V)) → String → Option V
  | [], _ => none
  | some e :: rest, k =>
    if e.key == k && !e.is_tombstone then some e.value else findLive rest k
  | none :: rest, k => findLive rest k

/-- Number of live (non-tombstoned) entries. -/
def liveCount {V : Type} : List (Option (HashEntry V)) → Nat
  | [] => 0
  | some e :: rest => (if e.is_tombstone then 0 else 1) + liveCount rest
  | none :: rest => liveCount rest

/-- The live key-value pairs in array order. -/
def livePairs {V : Type} : List (Option (HashEntry V)) → List (String × V)
  | [] => []
  | some e :: rest =>
    if e.is_tombstone then livePairs rest else (e.key, e.value) :: livePairs rest
  | none :: rest => livePairs rest

/-- Weight of a slot in the live count. -/
def liveWeight {V : Type} : Option (HashEntry V) → Nat
  | some e => if e.is_tombstone then 0 else 1
  | none => 0

/-- A key occupies at most one live slot. -/
def UniqKeys {V : Type} (slots : List (Option (HashEntry V))) : Prop :=
  ∀ c₁ c₂ e₁ e₂, slots.get? c₁ = some (some e₁) → slots.get? c₂ = some (some e₂) →
    e₁.is_tombstone = false → e₂.is_tombstone = false → e₁.key = e₂.key → c₁ = c₂

/-- Well-formedness invariant of a probing table state, established by
construction and preserved by every returning public operation.  probeOk is
the key clause: every live entry sits on its own probe sequence at a step
j < capacity all of whose predecessors hold entries (live or tombstoned)
with different keys; uniq states that a key occupies at most one live slot. -/
structure WFoa {V : Type} (m : OAMap V) : Prop where
  len : m.buckets.length = m.capacity
  prime : Nat.Prime m.capacity
  sizeEq : m.size = liveCount m.buckets
  load : 2 * m.size ≤ m.capacity + 1
  probeOk : ∀ c e, m.buckets.get? c = some (some e) → e.is_tombstone = false →
    ∃ j < m.capacity, probeIdx (m.hash e.key % m.capacity) m.capacity j = c ∧
      ∀ j' < j, ∃ e', m.buckets.get? (probeIdx (m.hash e.key % m.capacity) m.capacity j') =
        some (some e') ∧ e'.key ≠ e.key
  uniq : UniqKeys m.buckets

/-- Well-formedness invariant of a chaining table state: the buckets array
has length capacity, the capacity is prime, size counts the stored nodes,
size fits the capacity, every node sits in the bucket selected by its
hashed key, and keys are globally unique. -/
structure WFsc {V : Type} (m : SCMap V) : Prop where
  len : m.buckets.length = m.capacity
  prime : Nat.Prime m.capacity
  sizeEq : m.size = sumLen m.buckets
  sizeLe : m.size ≤ m.capacity
  bucketOk : ∀ i chain, m.buckets.get? i = some chain →
    ∀ kv ∈ chain, m.hash kv.1 % m.capacity = i
  uniq : (m.buckets.flatten.map Prod.fst).Nodup

/-! Concrete material used by counterexamples and witnesses. -/

/-- A constant hash function. -/
def hOne (_ : String) : Nat := 0

/-- Hash function sending key ki to i, used with capacity 11. -/
def hMod (s : String) : Nat :=
  if s == "k0" then 0 else if s == "k1" then 1 else if s == "k2" then 2
  else if s == "k3" then 3 else if s == "k4" then 4 else if s == "k5" then 5 else 0

/-- Hash function for the capacity 5 probing trap: a, b, c cover the whole
quadratic probe set of index 0, namely slots 0, 1 and 4. -/
def h5 (s : String) : Nat :=
  if s == "a" then 0 else if s == "b" then 1 else if s == "c" then 4 else 0

/-- Hash function for the capacity 3 chaining example. -/
def h3 (s : String) : Nat :=
  if s == "a" then 0 else if s == "b" then 1 else if s == "c" then 2 else 0

/-- Three puts that fill slots 0, 1 and 4 of a capacity 5 probing table. -/
def c2ops : List (Op Nat) := [Op.put "a" 1, Op.put "b" 2, Op.put "c" 3]

/-- The capacity 5 probing table reached by c2ops. -/
def c2st : OAMap Nat :=
  ⟨[some ⟨"a", 1, false⟩, some ⟨"b", 2, false⟩, none, none, some ⟨"c", 3, false⟩],
    5, 3, h5⟩

/-- Five puts of distinct keys on a capacity 11 probing table. -/
def opsPut5 : List (Op Nat) :=
  [Op.put "k0" 0, Op.put "k1" 1, Op.put "k2" 2, Op.put "k3" 3, Op.put "k4" 4]

/-- The capacity 11 probing table with five live entries reached by opsPut5. -/
def st5oa : OAMap Nat :=
  ⟨[some ⟨"k0", 0, false⟩, some ⟨"k1", 1, false⟩, some ⟨"k2", 2, false⟩,
      some ⟨"k3", 3, false⟩, some ⟨"k4", 4, false⟩,
      none, none, none, none, none, none],
    11, 5, hMod⟩

/-- The table st5oa after one further put: six live entries, load 6/11. -/
def st6oa : OAMap Nat :=
  ⟨[some ⟨"k0", 0, false⟩, some ⟨"k1", 1, false⟩, some ⟨"k2", 2, false⟩,
      some ⟨"k3", 3, false⟩, some ⟨"k4", 4, false⟩, some ⟨"k5", 5, false⟩,
      none, none, none, none, none],
    11, 6, hMod⟩

/-- Three puts of distinct keys on a capacity 3 chaining table. -/
def c7ops : List (Op Nat) := [Op.put "a" 1, Op.put "b" 2, Op.put "c" 3]

/-- The full capacity 3 chaining table reached by c7ops: load exactly 1. -/
def c7st : SCMap Nat := ⟨[[("a", 1)], [("b", 2)], [("c", 3)]], 3, 3, h3⟩

/-- The table st5oa after resize_table(23): capacity 23, same five entries. -/
def st23oa : OAMap Nat :=
  ⟨[some ⟨"k0", 0, false⟩, some ⟨"k1", 1, false⟩, some ⟨"k2", 2, false⟩,
      some ⟨"k3", 3, false⟩, some ⟨"k4", 4, false⟩] ++ List.replicate 18 none,
    23, 5, hMod⟩

theorem is_primeLoop_eq_false_of_dvd (c d : Nat) (hd3 : 3 ≤ d) (hdodd : d % 2 = 1)
    (hdvd : d ∣ c) (hdsq : d * d ≤ c) :
    ∀ fuel f, f % 2 = 1 → 3 ≤ f → f ≤ d → d < f + 2 * fuel →
      is_primeLoop c fuel f = false := by
  intro fuel
  induction fuel with
  | zero => intro f _ _ hfd hlt; omega
  | succ n ih =>
    intro f hfodd hf3 hfd hlt
    have hfsq : f * f ≤ c := le_trans (Nat.mul_le_mul hfd hfd) hdsq
    rw [is_primeLoop, if_pos hfsq]
    by_cases hmod : c % f == 0
    · rw [if_pos hmod]
    · rw [if_neg hmod]
      have hfne : f ≠ d := by
        intro h
        subst h
        obtain ⟨t, rfl⟩ := hdvd
        exact hmod (by simp [Nat.mul_mod_right])
      have hflt : f < d := lt_of_le_of_ne hfd hfne
      have hstep : f + 2 ≤ d := by omega
      exact ih (f + 2) (by omega) (by omega) hstep (by omega)

theorem is_primeLoop_eq_true_of_prime (c : Nat) (hc : Nat.Prime c) :
    ∀ fuel f, 2 ≤ f → is_primeLoop c fuel f = true := by
  intro fuel
  induction fuel with
  | zero => intro f _; rfl
  | succ n ih =>
    intro f hf2
    rw [is_primeLoop]
    by_cases hfsq : f * f ≤ c
    · rw [if_pos hfsq]
      have hmod : ¬ (c % f == 0) := by
        intro h
        have hdvd : f ∣ c := Nat.dvd_of_mod_eq_zero (by simpa using h)
        rcases (Nat.Prime.eq_one_or_self_of_dvd hc f hdvd) with h1 | h1
        · omega
        · rw [h1] at hfsq
          have h2c : 2 ≤ c := hc.two_le
          have := Nat.mul_le_mul_right c h2c
          omega
      rw [if_neg hmod]
      exact ih (f + 2) (by omega)
    · rw [if_neg hfsq]

theorem is_prime_iff (c : Nat) : is_prime c = true ↔ Nat.Prime c := by
  constructor
  · intro h
    by_contra hnp
    unfold is_prime at h
    by_cases h23 : c == 2 || c == 3
    · have : c = 2 ∨ c = 3 := by
        rcases Bool.or_eq_true_iff.mp h23 with h' | h' <;>
          simp only [beq_iff_eq] at h' <;> omega
      rcases this with h' | h' <;> subst h' <;>
        first
          | exact hnp Nat.prime_two
          | exact hnp Nat.prime_three
    · rw [if_neg h23] at h
      by_cases h1e : c == 1 || c % 2 == 0
      · rw [if_pos h1e] at h
        exact Bool.false_ne_true h
      · rw [if_neg h1e] at h
        have hne2 : c ≠ 2 := by
          intro h'; apply h23; subst h'; rfl
        have hne3 : c ≠ 3 := by
          intro h'; apply h23; subst h'; rfl
        have hne1 : c ≠ 1 := by
          intro h'; apply h1e; subst h'; rfl
        have hodd : c % 2 = 1 := by
          rcases Nat.mod_two_eq_zero_or_one c with h' | h'
          · exfalso; apply h1e; simp [h']
          · exact h'
        have hc0 : c ≠ 0 := by intro h'; subst h'; simp at hodd
        have hc5 : 5 ≤ c := by omega
        set d := Nat.minFac c with hd
        have hdp : Nat.Prime d := Nat.minFac_prime hne1
        have hddvd : d ∣ c := Nat.minFac_dvd c
        have hdsq : d * d ≤ c := by
          have := @Nat.minFac_sq_le_self c (by omega) hnp
          simpa [pow_two] using this
        have hdodd : d % 2 = 1 := by
          rcases Nat.mod_two_eq_zero_or_one d with h' | h'
          · exfalso
            have : d = 2 := (Nat.Prime.even_iff hdp).mp (Nat.even_iff.mpr h')
            rw [this] at hddvd
            have : c % 2 = 0 := Nat.mod_eq_zero_of_dvd hddvd
            omega
          · exact h'
        have hd3 : 3 ≤ d := by
          have := hdp.two_le
          omega
        have hdc : d ≤ c := Nat.le_of_dvd (by omega) hddvd
        have := is_primeLoop_eq_false_of_dvd c d hd3 hdodd hddvd hdsq
          (c + 1) 3 (by omega) (by omega) (by omega) (by omega)
        rw [this] at h
        exact Bool.false_ne_true h
  · intro hc
    unfold is_prime
    by_cases h23 : c == 2 || c == 3
    · rw [if_pos h23]
    · rw [if_neg h23]
      have hne2 : c ≠ 2 := by intro h'; apply h23; subst h'; rfl
      have hne3 : c ≠ 3 := by intro h'; apply h23; subst h'; rfl
      have h1e : ¬ (c == 1 || c % 2 == 0) := by
        intro h'
        rcases Bool.or_eq_true_iff.mp h' with h'' | h''
        · have : c = 1 := by simpa using h''
          exact Nat.Prime.one_lt hc |>.ne' this
        · have hmod : c % 2 = 0 := by simpa using h''
          have : c = 2 := ((Nat.Prime.even_iff hc).mp (Nat.even_iff.mpr hmod))
          exact hne2 this
      rw [if_neg h1e]
      exact is_primeLoop_eq_true_of_prime c hc (c + 1) 3 (by omega)

theorem next_primeLoop_spec :
    ∀ fuel c, c % 2 = 1 →
      (∃ p, Nat.Prime p ∧ p % 2 = 1 ∧ c ≤ p ∧ p ≤ c + 2 * fuel) →
      Nat.Prime (next_primeLoop fuel c) ∧ c ≤ next_primeLoop fuel c ∧
        next_primeLoop fuel c % 2 = 1 := by
  intro fuel
  induction fuel with
  | zero =>
    intro c hodd hex
    rcases hex with ⟨p, hp, _, hcp, hpc⟩
    have : p = c := by omega
    subst this
    exact ⟨hp, le_refl _, hodd⟩
  | succ n ih =>
    intro c hodd hex
    rw [next_primeLoop]
    by_cases hpr : is_prime c
    · rw [if_pos hpr]
      exact ⟨(is_prime_iff c).mp hpr, le_refl _, hodd⟩
    · rw [if_neg hpr]
      rcases hex with ⟨p, hp, hpodd, hcp, hpc⟩
      have hpnec : p ≠ c := by
        intro h'; subst h'; exact hpr ((is_prime_iff p).mpr hp)
      have hcp2 : c + 2 ≤ p := by omega
      have := ih (c + 2) (by omega) ⟨p, hp, hpodd, hcp2, by omega⟩
      exact ⟨this.1, by omega, this.2.2⟩

theorem exists_odd_prime_window (c : Nat) (hodd : c % 2 = 1) :
    ∃ p, Nat.Prime p ∧ p % 2 = 1 ∧ c ≤ p ∧ p ≤ c + 2 * (c + 2) := by
  by_cases hc1 : c = 1
  · subst hc1
    exact ⟨3, Nat.prime_three, by omega, by omega, by omega⟩
  · have hc3 : 3 ≤ c := by omega
    by_cases hcp : Nat.Prime c
    · exact ⟨c, hcp, hodd, le_refl _, by omega⟩
    · rcases Nat.exists_prime_lt_and_le_two_mul c (by omega) with ⟨p, hp, hlt, hle⟩
      have hpodd : p % 2 = 1 := by
        rcases Nat.mod_two_eq_zero_or_one p with h' | h'
        · exfalso
          have : p = 2 := ((Nat.Prime.even_iff hp).mp (Nat.even_iff.mpr h'))
          omega
        · exact h'
      exact ⟨p, hp, hpodd, by omega, by omega⟩

theorem next_prime_spec (capacity : Nat) :
    Nat.Prime (next_prime capacity) ∧ capacity ≤ next_prime capacity ∧
      next_prime capacity % 2 = 1 ∧
      (capacity % 2 = 0 → capacity + 1 ≤ next_prime capacity) := by
  unfold next_prime
  by_cases he : capacity % 2 = 0
  · rw [if_pos (by simpa using he)]
    have hodd : (capacity + 1) % 2 = 1 := by omega
    have h := next_primeLoop_spec (capacity + 1 + 2) (capacity + 1) hodd
      (by
        rcases exists_odd_prime_window (capacity + 1) hodd with ⟨p, h1, h2, h3, h4⟩
        exact ⟨p, h1, h2, h3, by omega⟩)
    exact ⟨h.1, by omega, h.2.2, fun _ => h.2.1⟩
  · rw [if_neg (by simpa using he)]
    have hodd : capacity % 2 = 1 := by omega
    have h := next_primeLoop_spec (capacity + 2) capacity hodd
      (exists_odd_prime_window capacity hodd)
    exact ⟨h.1, h.2.1, h.2.2, fun hx => absurd hx he⟩

theorem next_prime_prime (capacity : Nat) : Nat.Prime (next_prime capacity) :=
  (next_prime_spec capacity).1

theorem next_prime_ge (capacity : Nat) : capacity ≤ next_prime capacity :=
  (next_prime_spec capacity).2.1

theorem next_prime_odd (capacity : Nat) : next_prime capacity % 2 = 1 :=
  (next_prime_spec capacity).2.2.1

theorem next_prime_gt_of_even (capacity : Nat) (he : capacity % 2 = 0) :
    capacity + 1 ≤ next_prime capacity :=
  (next_prime_spec capacity).2.2.2 he

/-! Basic lemmas about chains and bucket arrays. -/

theorem bucketFind_append_of_none {V : Type} {l₁ : List (String × V)} {k : String}
    (h : bucketFind l₁ k = none) (l₂ : List (String × V)) :
    bucketFind (l₁ ++ l₂) k = bucketFind l₂ k := by
  induction l₁ with
  | nil => simp
  | cons p rest ih =>
    obtain ⟨k', v'⟩ := p
    by_cases hk : k' == k
    · rw [bucketFind, if_pos hk] at h
      exact absurd h (by simp)
    · rw [bucketFind, if_neg hk] at h
      rw [List.cons_append, bucketFind, if_neg hk]
      exact ih h

theorem bucketFind_append_of_some {V : Type} {l₁ : List (String × V)} {k : String} {v : V}
    (h : bucketFind l₁ k = some v) (l₂ : List (String × V)) :
    bucketFind (l₁ ++ l₂) k = some v := by
  induction l₁ with
  | nil => simp [bucketFind] at h
  | cons p rest ih =>
    obtain ⟨k', v'⟩ := p
    by_cases hk : k' == k
    · rw [bucketFind, if_pos hk] at h
      rw [List.cons_append, bucketFind, if_pos hk]
      exact h
    · rw [bucketFind, if_neg hk] at h
      rw [List.cons_append, bucketFind, if_neg hk]
      exact ih h

theorem bucketFind_eq_none_iff {V : Type} {l : List (String × V)} {k : String} :
    bucketFind l k = none ↔ ∀ p ∈ l, p.1 ≠ k := by
  induction l with
  | nil => simp [bucketFind]
  | cons p rest ih =>
    obtain ⟨k', v'⟩ := p
    by_cases hk : k' == k
    · have : k' = k := by simpa using hk
      subst this
      simp [bucketFind, hk]
    · have hne : k' ≠ k := by simpa using hk
      rw [bucketFind, if_neg hk]
      simp only [List.mem_cons]
      constructor
      · intro h q hq
        rcases hq with hq | hq
        · subst hq; exact hne
        · exact ih.mp h q hq
      · intro h
        exact ih.mpr (fun q hq => h q (Or.inr hq))

theorem bucketFind_eq_some_mem {V : Type} {l : List (String × V)} {k : String} {v : V}
    (h : bucketFind l k = some v) : (k, v) ∈ l := by
  induction l with
  | nil => simp [bucketFind] at h
  | cons p rest ih =>
    obtain ⟨k', v'⟩ := p
    by_cases hk : k' == k
    · rw [bucketFind, if_pos hk] at h
      have h1 : k' = k := by simpa using hk
      have h2 : v' = v := by simpa using h
      subst h1; subst h2
      exact List.mem_cons_self _ _
    · rw [bucketFind, if_neg hk] at h
      exact List.mem_cons_of_mem _ (ih h)

theorem bucketFind_mem_nodup {V : Type} {l : List (String × V)} {k : String} {v : V}
    (hmem : (k, v) ∈ l) (hnd : (l.map Prod.fst).Nodup) : bucketFind l k = some v := by
  induction l with
  | nil => simp at hmem
  | cons p rest ih =>
    obtain ⟨k', v'⟩ := p
    rw [List.map_cons, List.nodup_cons] at hnd
    rcases List.mem_cons.mp hmem with heq | hmem'
    · have hk' : k' = k := (congrArg Prod.fst heq).symm
      have hv' : v' = v := (congrArg Prod.snd heq).symm
      rw [bucketFind, if_pos (by simpa using hk')]
      exact congrArg some hv'
    · have hk' : ¬ (k' == k) := by
        simp only [beq_iff_eq]
        intro h
        subst h
        exact hnd.1 (List.mem_map.mpr ⟨(k', v), hmem', rfl⟩)
      rw [bucketFind, if_neg hk']
      exact ih hmem' hnd.2

theorem flatten_set_decomp {α : Type} :
    ∀ (bs : List (List α)) (i : Nat) (c : List α), bs.get? i = some c →
      ∃ A B, bs.flatten = A ++ (c ++ B) ∧
        ∀ c', (bs.set i c').flatten = A ++ (c' ++ B) := by
  intro bs
  induction bs with
  | nil => intro i c h; simp at h
  | cons b rest ih =>
    intro i c h
    match i with
    | 0 =>
      have hb : b = c := by simpa using h
      subst hb
      exact ⟨[], rest.flatten, by simp, fun c' => by simp⟩
    | i + 1 =>
      have h' : rest.get? i = some c := by simpa using h
      obtain ⟨A, B, h1, h2⟩ := ih i c h'
      refine ⟨b ++ A, B, ?_, ?_⟩
      · simp [h1]
      · intro c'
        simp [h2 c']

theorem sumLen_eq_length_flatten {V : Type} (bs : List (List (String × V))) :
    sumLen bs = bs.flatten.length := by
  rw [sumLen, List.length_flatten]

theorem flatten_replicate_nil {α : Type} : ∀ n, (List.replicate n ([] : List α)).flatten = [] := by
  intro n
  induction n with
  | zero => rfl
  | succ n ih => simpa [List.replicate] using ih

/-! Lemmas about the rehash fold of the chaining resize. -/

theorem scatter_foldl_length {V : Type} (h : String → Nat) (p : Nat) :
    ∀ (L : List (String × V)) (bs : List (List (String × V))),
      (L.foldl (scatterPair h p) bs).length = bs.length := by
  intro L
  induction L with
  | nil => intro bs; rfl
  | cons kv rest ih =>
    intro bs
    rw [List.foldl_cons, ih]
    simp [scatterPair]

theorem scatter_foldl_perm {V : Type} (h : String → Nat) (p : Nat) (hp : 0 < p) :
    ∀ (L : List (String × V)) (bs : List (List (String × V))), bs.length = p →
      (L.foldl (scatterPair h p) bs).flatten.Perm (bs.flatten ++ L) := by
  intro L
  induction L with
  | nil => intro bs _; simp
  | cons kv rest ih =>
    intro bs hlen
    rw [List.foldl_cons]
    have hi : h kv.1 % p < bs.length := by rw [hlen]; exact Nat.mod_lt _ hp
    obtain ⟨c, hc⟩ : ∃ c, bs.get? (h kv.1 % p) = some c := by
      cases hbs : bs.get? (h kv.1 % p) with
      | none => exact absurd (List.get?_eq_none.mp hbs) (by omega)
      | some c => exact ⟨c, rfl⟩
    obtain ⟨A, B, hfl, hset⟩ := flatten_set_decomp bs _ c hc
    have hstep : (scatterPair h p bs kv).flatten.Perm (bs.flatten ++ [kv]) := by
      rw [scatterPair, hc]
      simp only [Option.getD_some]
      rw [hset (c ++ [kv]), hfl]
      have hmid := List.Perm.append_left (A ++ c) (@List.perm_append_comm _ [kv] B)
      simpa [List.append_assoc] using hmid
    have hlen' : (scatterPair h p bs kv).length = p := by
      rw [scatterPair]
      simp [hlen]
    have h1 := ih (scatterPair h p bs kv) hlen'
    have h2 := hstep.append_right rest
    have h3 : (bs.flatten ++ [kv]) ++ rest = bs.flatten ++ (kv :: rest) := by simp
    exact h1.trans (h3 ▸ h2)

theorem scatter_foldl_bucketOk {V : Type} (h : String → Nat) (p : Nat) (hp : 0 < p) :
    ∀ (L : List (String × V)) (bs : List (List (String × V))), bs.length = p →
      (∀ i chain, bs.get? i = some chain → ∀ kv ∈ chain, h kv.1 % p = i) →
      ∀ i chain, (L.foldl (scatterPair h p) bs).get? i = some chain →
        ∀ kv ∈ chain, h kv.1 % p = i := by
  intro L
  induction L with
  | nil => intro bs _ hOk; exact hOk
  | cons kv₀ rest ih =>
    intro bs hlen hOk
    rw [List.foldl_cons]
    have hlen' : (scatterPair h p bs kv₀).length = p := by
      rw [scatterPair]; simp [hlen]
    apply ih _ hlen'
    intro i chain hchain kv hkv
    rw [scatterPair] at hchain
    by_cases hieq : h kv₀.1 % p = i
    · rw [hieq] at hchain
      rw [List.get?_set_eq_of_lt _ (by rw [hlen]; exact hieq ▸ Nat.mod_lt _ hp)] at hchain
      have hchain' : (((bs.get? i).getD []) ++ [kv₀]) = chain := by
        simpa using hchain
      subst hchain'
      rcases List.mem_append.mp hkv with hmem | hmem
      · obtain ⟨c₀, hc₀⟩ : ∃ c₀, bs.get? i = some c₀ := by
          cases hbs : bs.get? i with
          | none => rw [hbs] at hmem; simp at hmem
          | some c₀ => exact ⟨c₀, rfl⟩
        rw [hc₀] at hmem
        exact hOk i c₀ hc₀ kv (by simpa using hmem)
      · have : kv = kv₀ := by simpa using hmem
        subst this
        exact hieq
    · rw [List.get?_set_ne _ _ hieq] at hchain
      exact hOk i chain hchain kv hkv

theorem scatter_foldl_find {V : Type} (h : String → Nat) (p : Nat) (hp : 0 < p) :
    ∀ (L : List (String × V)) (bs : List (List (String × V))) (k : String), bs.length = p →
      bucketFind (((L.foldl (scatterPair h p) bs).get? (h k % p)).getD []) k =
        match bucketFind ((bs.get? (h k % p)).getD []) k with
        | some v => some v
        | none => bucketFind L k := by
  intro L
  induction L with
  | nil =>
    intro bs k _
    rw [List.foldl_nil]
    cases hfind : bucketFind ((bs.get? (h k % p)).getD []) k <;> rfl
  | cons kv₀ rest ih =>
    intro bs k hlen
    rw [List.foldl_cons]
    have hlen' : (scatterPair h p bs kv₀).length = p := by
      rw [scatterPair]; simp [hlen]
    rw [ih _ k hlen']
    by_cases hieq : h kv₀.1 % p = h k % p
    · have hi : h kv₀.1 % p < bs.length := by rw [hlen]; exact Nat.mod_lt _ hp
      obtain ⟨c, hc⟩ : ∃ c, bs.get? (h kv₀.1 % p) = some c := by
        cases hbs : bs.get? (h kv₀.1 % p) with
        | none => exact absurd (List.get?_eq_none.mp hbs) (by omega)
        | some c => exact ⟨c, rfl⟩
      have hset : (scatterPair h p bs kv₀).get? (h k % p) = some (c ++ [kv₀]) := by
        rw [scatterPair, hc, ← hieq]
        simp only [Option.getD_some]
        exact List.get?_set_eq_of_lt _ (by rw [hlen]; exact Nat.mod_lt _ hp)
      rw [hset]
      rw [← hieq, hc]
      simp only [Option.getD_some]
      cases hfind : bucketFind c k with
      | some v =>
        rw [bucketFind_append_of_some hfind]
      | none =>
        rw [bucketFind_append_of_none hfind]
        obtain ⟨k₀, v₀⟩ := kv₀
        by_cases hk₀ : k₀ == k
        · have h1 : bucketFind ((k₀, v₀) :: rest) k = some v₀ := by
            rw [bucketFind, if_pos hk₀]
          have h2 : bucketFind [(k₀, v₀)] k = some v₀ := by
            rw [bucketFind, if_pos hk₀]
          rw [h2, h1]
        · have h1 : bucketFind ((k₀, v₀) :: rest) k = bucketFind rest k := by
            rw [bucketFind, if_neg hk₀]
          have h2 : bucketFind [(k₀, v₀)] k = none := by
            rw [bucketFind, if_neg hk₀]
            rfl
          rw [h2, h1]
    · have hset : (scatterPair h p bs kv₀).get? (h k % p) = bs.get? (h k % p) := by
        rw [scatterPair]
        exact List.get?_set_ne _ _ hieq
      rw [hset]
      cases hfind : bucketFind ((bs.get? (h k % p)).getD []) k with
      | some v => rfl
      | none =>
        simp only []
        obtain ⟨k₀, v₀⟩ := kv₀
        have hk₀ : ¬ (k₀ == k) := by
          intro hbeq
          apply hieq
          have : k₀ = k := by simpa using hbeq
          rw [this]
        rw [bucketFind, if_neg hk₀]

/-! Specifications of the chaining operations. -/

theorem contains_keySC_eq {V : Type} (m : SCMap V) (k : String) :
    contains_keySC m k = (getSC m k).isSome := rfl

theorem getSC_eq_getD {V : Type} (m : SCMap V) (k : String)
    (h : m.hash k % m.capacity < m.buckets.length) :
    getSC m k = bucketFind ((m.buckets.get? (m.hash k % m.capacity)).getD []) k := by
  obtain ⟨chain, hc⟩ : ∃ chain, m.buckets.get? (m.hash k % m.capacity) = some chain := by
    cases hx : m.buckets.get? (m.hash k % m.capacity) with
    | none => exact absurd (List.get?_eq_none.mp hx) (by omega)
    | some chain => exact ⟨chain, rfl⟩
  rw [getSC, hc]
  rfl

theorem getSC_eq_find_flatten {V : Type} {m : SCMap V} (hwf : WFsc m) (k : String) :
    getSC m k = bucketFind m.buckets.flatten k := by
  have hcappos : 0 < m.capacity := hwf.prime.two_le.trans_lt' (by omega)
  have hidx : m.hash k % m.capacity < m.buckets.length := by
    rw [hwf.len]; exact Nat.mod_lt _ hcappos
  obtain ⟨chain, hc⟩ : ∃ chain, m.buckets.get? (m.hash k % m.capacity) = some chain := by
    cases hx : m.buckets.get? (m.hash k % m.capacity) with
    | none => exact absurd (List.get?_eq_none.mp hx) (by omega)
    | some chain => exact ⟨chain, rfl⟩
  have hget : getSC m k = bucketFind chain k := by rw [getSC, hc]; rfl
  cases hfl : bucketFind m.buckets.flatten k with
  | none =>
    rw [hget]
    rw [bucketFind_eq_none_iff] at hfl ⊢
    intro q hq
    exact hfl q (List.mem_flatten.mpr ⟨chain, List.get?_mem hc, hq⟩)
  | some v =>
    rw [hget]
    have hmem := bucketFind_eq_some_mem hfl
    obtain ⟨chain', hchain', hqmem⟩ := List.mem_flatten.mp hmem
    obtain ⟨j, hj⟩ := List.mem_iff_get?.mp hchain'
    have hbj := hwf.bucketOk j chain' hj (k, v) hqmem
    have : j = m.hash k % m.capacity := by simpa using hbj.symm
    subst this
    have : chain' = chain := by
      rw [hj] at hc
      exact Option.some.inj hc
    subst this
    have hnd : (chain'.map Prod.fst).Nodup :=
      ((List.sublist_flatten_of_mem hchain').map Prod.fst).nodup hwf.uniq
    exact bucketFind_mem_nodup hqmem hnd

theorem growLoopF_prime : ∀ (fuel size p : Nat), Nat.Prime p →
    Nat.Prime (growLoopF fuel size p) := by
  intro fuel
  induction fuel with
  | zero => intro size p hp; exact hp
  | succ n ih =>
    intro size p hp
    rw [growLoopF]
    by_cases h : p < size
    · rw [if_pos h]; exact ih _ _ (next_prime_prime _)
    · rw [if_neg h]; exact hp

theorem growLoopF_ge : ∀ (fuel size p : Nat), p ≤ growLoopF fuel size p := by
  intro fuel
  induction fuel with
  | zero => intro size p; exact le_refl _
  | succ n ih =>
    intro size p
    rw [growLoopF]
    by_cases h : p < size
    · rw [if_pos h]
      have h1 : 2 * p ≤ next_prime (2 * p) := next_prime_ge _
      have h2 := ih size (next_prime (2 * p))
      omega
    · rw [if_neg h]

theorem growLoopF_ge_size : ∀ (fuel size p : Nat), 1 ≤ p → size ≤ p + fuel →
    size ≤ growLoopF fuel size p := by
  intro fuel
  induction fuel with
  | zero => intro size p _ h; simpa [growLoopF] using h
  | succ n ih =>
    intro size p hp h
    rw [growLoopF]
    by_cases hlt : p < size
    · rw [if_pos hlt]
      have h1 : 2 * p ≤ next_prime (2 * p) := next_prime_ge _
      exact ih size _ (by omega) (by omega)
    · rw [if_neg hlt]; omega

theorem resizeSC_spec {V : Type} {m : SCMap V} (hwf : WFsc m) {n : Nat} (hn : 1 ≤ n) :
    WFsc (resizeSC m n) ∧ (∀ k, getSC (resizeSC m n) k = getSC m k) ∧
      (resizeSC m n).size = m.size ∧ (resizeSC m n).hash = m.hash ∧
      (if is_prime n then n else next_prime n) ≤ (resizeSC m n).capacity ∧
      m.size ≤ (resizeSC m n).capacity := by
  have hp0prime : Nat.Prime (if is_prime n then n else next_prime n) := by
    by_cases h : is_prime n
    · rw [if_pos h]; exact (is_prime_iff n).mp h
    · rw [if_neg h]; exact next_prime_prime n
  have hp0ge : n ≤ (if is_prime n then n else next_prime n) := by
    by_cases h : is_prime n
    · rw [if_pos h]
    · rw [if_neg h]; exact next_prime_ge n
  set p0 := if is_prime n then n else next_prime n with hp0
  set p := growLoopF (m.size + 1) m.size p0 with hpdef
  set NB := m.buckets.foldl (fun acc chain => chain.foldl (scatterPair m.hash p) acc)
    (List.replicate p []) with hNB
  have hres : resizeSC m n = ⟨NB, p, sumLen m.buckets, m.hash⟩ := by
    rw [resizeSC, if_neg (by omega)]
  have hPprime : Nat.Prime p := growLoopF_prime _ _ _ hp0prime
  have hPpos : 0 < p := by have := hPprime.two_le; omega
  have hPge : p0 ≤ p := growLoopF_ge _ _ _
  have hsizeP : m.size ≤ p := growLoopF_ge_size _ _ _ (by omega) (by omega)
  have hfold : NB = m.buckets.flatten.foldl (scatterPair m.hash p) (List.replicate p []) := by
    rw [hNB, List.foldl_flatten]
  have hlenNB : (m.buckets.flatten.foldl (scatterPair m.hash p) (List.replicate p [])).length
      = p := by
    rw [scatter_foldl_length, List.length_replicate]
  have hperm : (m.buckets.flatten.foldl (scatterPair m.hash p)
      (List.replicate p [])).flatten.Perm m.buckets.flatten := by
    have := scatter_foldl_perm m.hash p hPpos m.buckets.flatten (List.replicate p [])
      (List.length_replicate _ _)
    rw [flatten_replicate_nil] at this
    simpa using this
  have hbase : ∀ i chain, (List.replicate p ([] : List (String × V))).get? i = some chain →
      ∀ kv ∈ chain, m.hash kv.1 % p = i := by
    intro i chain hchain kv hkv
    have : chain = [] := by
      rcases List.mem_iff_get?.mpr ⟨i, hchain⟩ with h
      exact List.eq_of_mem_replicate h
    subst this
    simp at hkv
  have hwf' : WFsc (resizeSC m n) := by
    rw [hres]
    refine ⟨?_, ?_, ?_, ?_, ?_, ?_⟩
    · show NB.length = p
      rw [hfold, hlenNB]
    · exact hPprime
    · show sumLen m.buckets = sumLen NB
      rw [hfold, sumLen_eq_length_flatten, sumLen_eq_length_flatten, hperm.length_eq]
    · show sumLen m.buckets ≤ p
      rw [← hwf.sizeEq]; exact hsizeP
    · show ∀ i chain, NB.get? i = some chain → ∀ kv ∈ chain, m.hash kv.1 % p = i
      rw [hfold]
      exact scatter_foldl_bucketOk m.hash p hPpos _ _ (List.length_replicate _ _) hbase
    · show (NB.flatten.map Prod.fst).Nodup
      rw [hfold]
      exact ((hperm.map Prod.fst).nodup_iff).mpr hwf.uniq
  refine ⟨hwf', ?_, ?_, ?_, ?_, ?_⟩
  · intro k
    have hcap' : (resizeSC m n).capacity = p := by rw [hres]
    have hhash' : (resizeSC m n).hash = m.hash := by rw [hres]
    have hlen' : (resizeSC m n).buckets.length = (resizeSC m n).capacity := hwf'.len
    have hidx : (resizeSC m n).hash k % (resizeSC m n).capacity <
        (resizeSC m n).buckets.length := by
      rw [hlen', hcap']; exact Nat.mod_lt _ hPpos
    rw [getSC_eq_getD _ _ hidx]
    have hbuck : (resizeSC m n).buckets =
        m.buckets.flatten.foldl (scatterPair m.hash p) (List.replicate p []) := by
      rw [hres]
      exact hfold
    rw [hbuck, hhash', hcap']
    rw [scatter_foldl_find m.hash p hPpos _ _ k (List.length_replicate _ _)]
    have hrep : ((List.replicate p ([] : List (String × V))).get? (m.hash k % p)).getD [] =
        [] := by
      cases hx : (List.replicate p ([] : List (String × V))).get? (m.hash k % p) with
      | none => rfl
      | some c =>
        have : c = [] := List.eq_of_mem_replicate (List.get?_mem hx)
        rw [this]; rfl
    rw [hrep]
    rw [getSC_eq_find_flatten hwf k]
    cases bucketFind m.buckets.flatten k <;> rfl
  · rw [hres, ← hwf.sizeEq]
  · rw [hres]
  · rw [hres]; exact hPge
  · rw [hres]; exact hsizeP

theorem length_bucketReplace {V : Type} (l : List (String × V)) (k : String) (v : V) :
    (bucketReplace l k v).length = l.length := by
  induction l with
  | nil => rfl
  | cons p rest ih =>
    obtain ⟨k', v'⟩ := p
    by_cases h : k' == k
    · rw [bucketReplace, if_pos h]
      simp
    · rw [bucketReplace, if_neg h]
      simp [ih]

theorem map_fst_bucketReplace {V : Type} (l : List (String × V)) (k : String) (v : V) :
    (bucketReplace l k v).map Prod.fst = l.map Prod.fst := by
  induction l with
  | nil => rfl
  | cons p rest ih =>
    obtain ⟨k', v'⟩ := p
    by_cases h : k' == k
    · rw [bucketReplace, if_pos h]
      simp
    · rw [bucketReplace, if_neg h]
      simp [ih]

theorem bucketFind_bucketReplace_self {V : Type} {l : List (String × V)} {k : String} {w : V}
    (h : bucketFind l k = some w) (v : V) :
    bucketFind (bucketReplace l k v) k = some v := by
  induction l with
  | nil => simp [bucketFind] at h
  | cons p rest ih =>
    obtain ⟨k', v'⟩ := p
    by_cases hk : k' == k
    · rw [bucketReplace, if_pos hk, bucketFind, if_pos hk]
    · rw [bucketFind, if_neg hk] at h
      rw [bucketReplace, if_neg hk, bucketFind, if_neg hk]
      exact ih h

theorem bucketFind_bucketReplace_ne {V : Type} (l : List (String × V)) {k k' : String}
    (hne : k' ≠ k) (v : V) :
    bucketFind (bucketReplace l k v) k' = bucketFind l k' := by
  induction l with
  | nil => rfl
  | cons p rest ih =>
    obtain ⟨k₀, v₀⟩ := p
    by_cases hk : k₀ == k
    · have hk0 : k₀ = k := by simpa using hk
      subst hk0
      have : ¬ (k₀ == k') := by simpa using fun h => hne h.symm
      rw [bucketReplace, if_pos hk, bucketFind, if_neg this, bucketFind, if_neg this]
    · rw [bucketReplace, if_neg hk]
      by_cases hk' : k₀ == k'
      · rw [bucketFind, if_pos hk', bucketFind, if_pos hk']
      · rw [bucketFind, if_neg hk', bucketFind, if_neg hk']
        exact ih

theorem bucketRemove_sublist {V : Type} (l : List (String × V)) (k : String) :
    (bucketRemove l k).Sublist l := by
  induction l with
  | nil => simp [bucketRemove]
  | cons p rest ih =>
    obtain ⟨k', v'⟩ := p
    by_cases h : k' == k
    · rw [bucketRemove, if_pos h]
      exact List.sublist_cons_self _ _
    · rw [bucketRemove, if_neg h]
      exact ih.cons₂ _

theorem length_bucketRemove {V : Type} {l : List (String × V)} {k : String} {w : V}
    (h : bucketFind l k = some w) :
    (bucketRemove l k).length + 1 = l.length := by
  induction l with
  | nil => simp [bucketFind] at h
  | cons p rest ih =>
    obtain ⟨k', v'⟩ := p
    by_cases hk : k' == k
    · rw [bucketRemove, if_pos hk]
      simp
    · rw [bucketFind, if_neg hk] at h
      rw [bucketRemove, if_neg hk]
      simp only [List.length_cons]
      rw [← ih h]

theorem bucketFind_bucketRemove_self {V : Type} {l : List (String × V)} {k : String}
    (hnd : (l.map Prod.fst).Nodup) :
    bucketFind (bucketRemove l k) k = none := by
  induction l with
  | nil => rfl
  | cons p rest ih =>
    obtain ⟨k', v'⟩ := p
    rw [List.map_cons, List.nodup_cons] at hnd
    by_cases hk : k' == k
    · have hk0 : k' = k := by simpa using hk
      subst hk0
      rw [bucketRemove, if_pos hk]
      rw [bucketFind_eq_none_iff]
      intro q hq hq1
      exact hnd.1 (hq1 ▸ List.mem_map.mpr ⟨q, hq, rfl⟩)
    · rw [bucketRemove, if_neg hk, bucketFind, if_neg hk]
      exact ih hnd.2

theorem bucketFind_bucketRemove_ne {V : Type} (l : List (String × V)) {k k' : String}
    (hne : k' ≠ k) :
    bucketFind (bucketRemove l k) k' = bucketFind l k' := by
  induction l with
  | nil => rfl
  | cons p rest ih =>
    obtain ⟨k₀, v₀⟩ := p
    by_cases hk : k₀ == k
    · have hk0 : k₀ = k := by simpa using hk
      subst hk0
      have : ¬ (k₀ == k') := by simpa using fun h => hne h.symm
      rw [bucketRemove, if_pos hk, bucketFind, if_neg this]
    · rw [bucketRemove, if_neg hk]
      by_cases hk' : k₀ == k'
      · rw [bucketFind, if_pos hk', bucketFind, if_pos hk']
      · rw [bucketFind, if_neg hk', bucketFind, if_neg hk']
        exact ih

theorem sumLen_set {V : Type} (bs : List (List (String × V))) (i : Nat)
    {c : List (String × V)} (c' : List (String × V)) (h : bs.get? i = some c) :
    sumLen (bs.set i c') + c.length = sumLen bs + c'.length := by
  obtain ⟨A, B, h1, h2⟩ := flatten_set_decomp bs i c h
  rw [sumLen_eq_length_flatten, sumLen_eq_length_flatten, h1, h2 c']
  simp only [List.length_append]
  omega

theorem flatten_set_append_perm {V : Type} (bs : List (List (String × V))) (i : Nat)
    {c : List (String × V)} (kv : String × V) (h : bs.get? i = some c) :
    (bs.set i (c ++ [kv])).flatten.Perm (bs.flatten ++ [kv]) := by
  obtain ⟨A, B, h1, h2⟩ := flatten_set_decomp bs i c h
  rw [h1, h2 (c ++ [kv])]
  have hmid := List.Perm.append_left (A ++ c) (@List.perm_append_comm _ [kv] B)
  simpa [List.append_assoc] using hmid

theorem map_fst_flatten_set {V : Type} (bs : List (List (String × V))) (i : Nat)
    {c c' : List (String × V)} (h : bs.get? i = some c)
    (hmap : c'.map Prod.fst = c.map Prod.fst) :
    (bs.set i c').flatten.map Prod.fst = bs.flatten.map Prod.fst := by
  obtain ⟨A, B, h1, h2⟩ := flatten_set_decomp bs i c h
  rw [h1, h2 c']
  simp [hmap]

theorem putSC_branch_spec {V : Type} {m1 : SCMap V} (hwf1 : WFsc m1)
    (hroom : sumLen m1.buckets < m1.capacity) (k : String) (v : V) :
    WFsc (if (getSC m1 k).isSome then
        { m1 with
            buckets := m1.buckets.set (m1.hash k % m1.capacity)
              (bucketReplace ((m1.buckets.get? (m1.hash k % m1.capacity)).getD []) k v) }
      else
        { m1 with
            buckets := m1.buckets.set (m1.hash k % m1.capacity)
              (((m1.buckets.get? (m1.hash k % m1.capacity)).getD []) ++ [(k, v)])
            size := m1.size + 1 }) ∧
    (∀ mr, mr = (if (getSC m1 k).isSome then
        { m1 with
            buckets := m1.buckets.set (m1.hash k % m1.capacity)
              (bucketReplace ((m1.buckets.get? (m1.hash k % m1.capacity)).getD []) k v) }
      else
        { m1 with
            buckets := m1.buckets.set (m1.hash k % m1.capacity)
              (((m1.buckets.get? (m1.hash k % m1.capacity)).getD []) ++ [(k, v)])
            size := m1.size + 1 }) →
      getSC mr k = some v ∧
      (∀ k', k' ≠ k → getSC mr k' = getSC m1 k') ∧
      ((getSC m1 k).isSome → mr.size = m1.size) ∧
      (getSC m1 k = none → mr.size = m1.size + 1) ∧
      mr.hash = m1.hash ∧ mr.capacity = m1.capacity ∧
      sumLen mr.buckets ≤ m1.capacity) := by
  have hcappos : 0 < m1.capacity := by have := hwf1.prime.two_le; omega
  have hidx : m1.hash k % m1.capacity < m1.buckets.length := by
    rw [hwf1.len]; exact Nat.mod_lt _ hcappos
  obtain ⟨chain, hc⟩ : ∃ chain, m1.buckets.get? (m1.hash k % m1.capacity) = some chain := by
    cases hx : m1.buckets.get? (m1.hash k % m1.capacity) with
    | none => exact absurd (List.get?_eq_none.mp hx) (by omega)
    | some chain => exact ⟨chain, rfl⟩
  have hgetD : (m1.buckets.get? (m1.hash k % m1.capacity)).getD [] = chain := by
    rw [hc]; rfl
  have hget1 : getSC m1 k = bucketFind chain k := by rw [getSC, hc]; rfl
  have hchain_nd : (chain.map Prod.fst).Nodup :=
    ((List.sublist_flatten_of_mem (List.get?_mem hc)).map Prod.fst).nodup hwf1.uniq
  by_cases hbr : (getSC m1 k).isSome
  · obtain ⟨w, hw⟩ := Option.isSome_iff_exists.mp hbr
    have hfind : bucketFind chain k = some w := by rw [← hget1]; exact hw
    rw [if_pos hbr]
    set newChain := bucketReplace chain k v with hnc
    set mr := { m1 with
      buckets := m1.buckets.set (m1.hash k % m1.capacity)
        (bucketReplace ((m1.buckets.get? (m1.hash k % m1.capacity)).getD []) k v) } with hmr
    have hmrbuckets : mr.buckets = m1.buckets.set (m1.hash k % m1.capacity) newChain := by
      rw [hmr, hgetD]
    have hlen' : mr.buckets.length = m1.buckets.length := by
      rw [hmrbuckets, List.length_set]
    have hgetset : mr.buckets.get? (m1.hash k % m1.capacity) = some newChain := by
      rw [hmrbuckets]
      exact List.get?_set_eq_of_lt _ hidx
    have hwfmr : WFsc mr := by
      refine ⟨?_, hwf1.prime, ?_, ?_, ?_, ?_⟩
      · rw [hlen']; exact hwf1.len
      · show m1.size = sumLen mr.buckets
        have hss := sumLen_set m1.buckets (m1.hash k % m1.capacity) newChain hc
        have hlennc : newChain.length = chain.length := by
          rw [hnc]; exact length_bucketReplace _ _ _
        rw [hwf1.sizeEq, hmrbuckets]
        omega
      · show m1.size ≤ m1.capacity
        exact hwf1.sizeLe
      · intro i ch hch kv hkv
        by_cases hie : i = m1.hash k % m1.capacity
        · subst hie
          rw [hgetset] at hch
          have hch' : newChain = ch := Option.some.inj hch
          subst hch'
          have hmemmap : kv.1 ∈ newChain.map Prod.fst := List.mem_map_of_mem Prod.fst hkv
          rw [hnc, map_fst_bucketReplace] at hmemmap
          obtain ⟨q, hq, hq1⟩ := List.mem_map.mp hmemmap
          have := hwf1.bucketOk _ chain hc q hq
          rw [hq1] at this
          exact this
        · rw [hmrbuckets, List.get?_set_ne _ _ (fun h => hie h.symm)] at hch
          exact hwf1.bucketOk i ch hch kv hkv
      · show (mr.buckets.flatten.map Prod.fst).Nodup
        rw [hmrbuckets]
        rw [map_fst_flatten_set m1.buckets _ hc (by rw [hnc, map_fst_bucketReplace])]
        exact hwf1.uniq
    refine ⟨hwfmr, ?_⟩
    intro mr' hmr'
    have hmr'' : mr' = mr := hmr'
    subst hmr''
    refine ⟨?_, ?_, ?_, ?_, rfl, rfl, ?_⟩
    · rw [getSC]
      show (mr.buckets.get? (m1.hash k % m1.capacity)).bind (fun chain => bucketFind chain k)
        = some v
      rw [hgetset]
      simp only [Option.some_bind]
      rw [hnc]
      exact bucketFind_bucketReplace_self hfind v
    · intro k' hk'
      rw [getSC, getSC]
      show (mr.buckets.get? (m1.hash k' % m1.capacity)).bind (fun chain => bucketFind chain k')
        = (m1.buckets.get? (m1.hash k' % m1.capacity)).bind (fun chain => bucketFind chain k')
      by_cases hie : m1.hash k' % m1.capacity = m1.hash k % m1.capacity
      · rw [hie, hgetset, hc]
        simp only [Option.some_bind]
        rw [hnc]
        exact bucketFind_bucketReplace_ne chain hk' v
      · rw [hmrbuckets, List.get?_set_ne _ _ (fun h => hie h.symm)]
    · intro _; rfl
    · intro hnone
      rw [hnone] at hbr
      simp at hbr
    · show sumLen mr.buckets ≤ m1.capacity
      have hss := sumLen_set m1.buckets (m1.hash k % m1.capacity) newChain hc
      have hlennc : newChain.length = chain.length := by
        rw [hnc]; exact length_bucketReplace _ _ _
      rw [hmrbuckets]
      omega
  · have hnone : getSC m1 k = none := by
      cases hx : getSC m1 k with
      | none => rfl
      | some w => rw [hx] at hbr; simp at hbr
    have hfind : bucketFind chain k = none := by rw [← hget1]; exact hnone
    rw [if_neg hbr]
    set newChain := chain ++ [(k, v)] with hnc
    set mr := { m1 with
        buckets := m1.buckets.set (m1.hash k % m1.capacity)
          (((m1.buckets.get? (m1.hash k % m1.capacity)).getD []) ++ [(k, v)])
        size := m1.size + 1 } with hmr
    have hmrbuckets : mr.buckets = m1.buckets.set (m1.hash k % m1.capacity) newChain := by
      rw [hmr, hgetD]
    have hlen' : mr.buckets.length = m1.buckets.length := by
      rw [hmrbuckets, List.length_set]
    have hgetset : mr.buckets.get? (m1.hash k % m1.capacity) = some newChain := by
      rw [hmrbuckets]
      exact List.get?_set_eq_of_lt _ hidx
    have hsum : sumLen mr.buckets = sumLen m1.buckets + 1 := by
      have hss := sumLen_set m1.buckets (m1.hash k % m1.capacity) newChain hc
      have hlennc : newChain.length = chain.length + 1 := by
        rw [hnc]; simp
      rw [hmrbuckets]
      omega
    have hknotin : ∀ q ∈ m1.buckets.flatten, q.1 ≠ k := by
      have := getSC_eq_find_flatten hwf1 k
      rw [hnone] at this
      exact bucketFind_eq_none_iff.mp this.symm
    have hwfmr : WFsc mr := by
      refine ⟨?_, hwf1.prime, ?_, ?_, ?_, ?_⟩
      · rw [hlen']; exact hwf1.len
      · show m1.size + 1 = sumLen mr.buckets
        rw [hsum, hwf1.sizeEq]
      · show m1.size + 1 ≤ m1.capacity
        have := hwf1.sizeEq
        omega
      · intro i ch hch kv hkv
        by_cases hie : i = m1.hash k % m1.capacity
        · subst hie
          rw [hgetset] at hch
          have hch' : newChain = ch := Option.some.inj hch
          subst hch'
          rw [hnc] at hkv
          rcases List.mem_append.mp hkv with hmem | hmem
          · exact hwf1.bucketOk _ chain hc kv hmem
          · have : kv = (k, v) := by simpa using hmem
            subst this
            rfl
        · rw [hmrbuckets, List.get?_set_ne _ _ (fun h => hie h.symm)] at hch
          exact hwf1.bucketOk i ch hch kv hkv
      · show (mr.buckets.flatten.map Prod.fst).Nodup
        have hperm : mr.buckets.flatten.Perm (m1.buckets.flatten ++ [(k, v)]) := by
          rw [hmrbuckets, hnc]
          exact flatten_set_append_perm m1.buckets _ (k, v) hc
        rw [(hperm.map Prod.fst).nodup_iff]
        simp only [List.map_append]
        rw [List.nodup_append]
        refine ⟨hwf1.uniq, by simp, ?_⟩
        intro a ha
        simp only [List.map_cons, List.map_nil, List.mem_cons, List.mem_singleton]
        obtain ⟨q, hq, hq1⟩ := List.mem_map.mp ha
        intro hak
        rcases hak with hak | hak
        · exact hknotin q hq (hq1.trans hak)
        · simp at hak
    refine ⟨hwfmr, ?_⟩
    intro mr' hmr'
    have hmr'' : mr' = mr := hmr'
    subst hmr''
    refine ⟨?_, ?_, ?_, ?_, rfl, rfl, ?_⟩
    · rw [getSC]
      show (mr.buckets.get? (m1.hash k % m1.capacity)).bind (fun chain => bucketFind chain k)
        = some v
      rw [hgetset]
      simp only [Option.some_bind]
      rw [hnc, bucketFind_append_of_none hfind, bucketFind, if_pos (by simp)]
    · intro k' hk'
      rw [getSC, getSC]
      show (mr.buckets.get? (m1.hash k' % m1.capacity)).bind (fun chain => bucketFind chain k')
        = (m1.buckets.get? (m1.hash k' % m1.capacity)).bind (fun chain => bucketFind chain k')
      by_cases hie : m1.hash k' % m1.capacity = m1.hash k % m1.capacity
      · rw [hie, hgetset, hc]
        simp only [Option.some_bind]
        rw [hnc]
        cases hfind' : bucketFind chain k' with
        | some w => exact bucketFind_append_of_some hfind' _
        | none =>
          rw [bucketFind_append_of_none hfind']
          rw [bucketFind, if_neg (by simpa using fun h => hk' h.symm)]
          rfl
      · rw [hmrbuckets, List.get?_set_ne _ _ (fun h => hie h.symm)]
    · intro hsome
      rw [hnone] at hsome
      simp at hsome
    · intro _; rfl
    · show sumLen mr.buckets ≤ m1.capacity
      omega

theorem putSC_spec {V : Type} {m : SCMap V} (hwf : WFsc m) (k : String) (v : V) :
    WFsc (putSC m k v) ∧
    getSC (putSC m k v) k = some v ∧
    (∀ k', k' ≠ k → getSC (putSC m k v) k' = getSC m k') ∧
    ((getSC m k).isSome → (putSC m k v).size = m.size) ∧
    (getSC m k = none → (putSC m k v).size = m.size + 1) ∧
    (putSC m k v).hash = m.hash ∧
    sumLen (putSC m k v).buckets ≤ (putSC m k v).capacity := by
  by_cases hT : m.capacity ≤ sumLen m.buckets
  · have hcap2 : 2 ≤ m.capacity := hwf.prime.two_le
    have hnotprime : is_prime (2 * m.capacity) = false := by
      by_cases hx : is_prime (2 * m.capacity)
      · exfalso
        have hpr := (is_prime_iff _).mp hx
        rcases hpr.eq_one_or_self_of_dvd 2 ⟨m.capacity, rfl⟩ with h2 | h2
        · omega
        · omega
      · simpa using hx
    obtain ⟨hwf1, hget1, hsize1, hhash1, hp0le, hsizele⟩ :=
      @resizeSC_spec _ _ hwf (2 * m.capacity) (by omega)
    rw [hnotprime] at hp0le
    simp only [Bool.false_eq_true, if_false] at hp0le
    have hp0big : 2 * m.capacity + 1 ≤ next_prime (2 * m.capacity) :=
      next_prime_gt_of_even _ (by omega)
    set m1 := resizeSC m (2 * m.capacity) with hm1
    have hroom : sumLen m1.buckets < m1.capacity := by
      have h1 : sumLen m1.buckets = m1.size := hwf1.sizeEq.symm
      have h2 : m1.size = m.size := hsize1
      have h3 : m.size ≤ m.capacity := hwf.sizeLe
      omega
    have hput : putSC m k v = (if (getSC m1 k).isSome then
        { m1 with
            buckets := m1.buckets.set (m1.hash k % m1.capacity)
              (bucketReplace ((m1.buckets.get? (m1.hash k % m1.capacity)).getD []) k v) }
      else
        { m1 with
            buckets := m1.buckets.set (m1.hash k % m1.capacity)
              (((m1.buckets.get? (m1.hash k % m1.capacity)).getD []) ++ [(k, v)])
            size := m1.size + 1 }) := by
      rw [putSC]
      rw [if_pos hT]
    obtain ⟨hwfr, hrest⟩ := putSC_branch_spec hwf1 hroom k v
    obtain ⟨hr1, hr2, hr3, hr4, hr5, hr6, hr7⟩ := hrest (putSC m k v) hput
    have hsomeiff : (getSC m k).isSome = (getSC m1 k).isSome := by rw [hget1]
    refine ⟨hput ▸ hwfr, hr1, ?_, ?_, ?_, ?_, ?_⟩
    · intro k' hk'
      rw [hr2 k' hk', hget1]
    · intro hs
      rw [hr3 (by rw [hget1]; exact hs), hsize1]
    · intro hs
      rw [hr4 (by rw [hget1]; exact hs), hsize1]
    · rw [hr5, hhash1]
    · rw [hr6]
      exact hr7
  · have hroom : sumLen m.buckets < m.capacity := by omega
    have hput : putSC m k v = (if (getSC m k).isSome then
        { m with
            buckets := m.buckets.set (m.hash k % m.capacity)
              (bucketReplace ((m.buckets.get? (m.hash k % m.capacity)).getD []) k v) }
      else
        { m with
            buckets := m.buckets.set (m.hash k % m.capacity)
              (((m.buckets.get? (m.hash k % m.capacity)).getD []) ++ [(k, v)])
            size := m.size + 1 }) := by
      rw [putSC]
      rw [if_neg hT]
    obtain ⟨hwfr, hrest⟩ := putSC_branch_spec hwf hroom k v
    obtain ⟨hr1, hr2, hr3, hr4, hr5, hr6, hr7⟩ := hrest (putSC m k v) hput
    exact ⟨hput ▸ hwfr, hr1, hr2, hr3, hr4, hr5, by rw [hr6]; exact hr7⟩

theorem removeSC_spec {V : Type} {m : SCMap V} (hwf : WFsc m) (k : String) :
    WFsc (removeSC m k) ∧
    getSC (removeSC m k) k = none ∧
    (∀ k', k' ≠ k → getSC (removeSC m k) k' = getSC m k') ∧
    (removeSC m k).hash = m.hash ∧ (removeSC m k).capacity = m.capacity ∧
    (removeSC m k).size ≤ m.size ∧
    (contains_keySC m k = false → removeSC m k = m) := by
  have hcappos : 0 < m.capacity := by have := hwf.prime.two_le; omega
  have hidx : m.hash k % m.capacity < m.buckets.length := by
    rw [hwf.len]; exact Nat.mod_lt _ hcappos
  obtain ⟨chain, hc⟩ : ∃ chain, m.buckets.get? (m.hash k % m.capacity) = some chain := by
    cases hx : m.buckets.get? (m.hash k % m.capacity) with
    | none => exact absurd (List.get?_eq_none.mp hx) (by omega)
    | some chain => exact ⟨chain, rfl⟩
  have hget1 : getSC m k = bucketFind chain k := by rw [getSC, hc]; rfl
  have hchain_nd : (chain.map Prod.fst).Nodup :=
    ((List.sublist_flatten_of_mem (List.get?_mem hc)).map Prod.fst).nodup hwf.uniq
  by_cases hbr : contains_keySC m k
  · have hsome : (getSC m k).isSome := by rw [← contains_keySC_eq]; exact hbr
    obtain ⟨w, hw⟩ := Option.isSome_iff_exists.mp hsome
    have hfind : bucketFind chain k = some w := by rw [← hget1]; exact hw
    have hrem : removeSC m k = { m with
        buckets := m.buckets.set (m.hash k % m.capacity)
          (bucketRemove ((m.buckets.get? (m.hash k % m.capacity)).getD []) k)
        size := m.size - 1 } := by
      rw [removeSC, if_pos hbr]
    set newChain := bucketRemove chain k with hnc
    have hgetD : (m.buckets.get? (m.hash k % m.capacity)).getD [] = chain := by
      rw [hc]; rfl
    have hmrbuckets : (removeSC m k).buckets =
        m.buckets.set (m.hash k % m.capacity) newChain := by
      rw [hrem, hgetD]
    have hgetset : (removeSC m k).buckets.get? (m.hash k % m.capacity) = some newChain := by
      rw [hmrbuckets]
      exact List.get?_set_eq_of_lt _ hidx
    have hlen' : (removeSC m k).buckets.length = m.buckets.length := by
      rw [hmrbuckets, List.length_set]
    have hsize' : (removeSC m k).size = m.size - 1 := by rw [hrem]
    have hsizepos : 1 ≤ m.size := by
      have hlc : chain.length ≥ 1 := by
        cases chain with
        | nil => simp [bucketFind] at hfind
        | cons a l => simp
      have := sumLen_set m.buckets (m.hash k % m.capacity) chain hc
      have hs := hwf.sizeEq
      have : chain.length ≤ sumLen m.buckets := by
        have hfl := flatten_set_decomp m.buckets _ chain hc
        obtain ⟨A, B, h1, _⟩ := hfl
        rw [sumLen_eq_length_flatten, h1]
        simp only [List.length_append]
        omega
      omega
    have hnclen : newChain.length + 1 = chain.length := by
      rw [hnc]; exact length_bucketRemove hfind
    have hsub : newChain.Sublist chain := by rw [hnc]; exact bucketRemove_sublist _ _
    have hwfr : WFsc (removeSC m k) := by
      refine ⟨?_, ?_, ?_, ?_, ?_, ?_⟩
      · rw [hlen', hrem]
        exact hwf.len
      · show Nat.Prime (removeSC m k).capacity
        rw [hrem]
        exact hwf.prime
      · show (removeSC m k).size = sumLen (removeSC m k).buckets
        have hss := sumLen_set m.buckets (m.hash k % m.capacity) newChain hc
        have hs := hwf.sizeEq
        rw [hsize', hmrbuckets]
        omega
      · show (removeSC m k).size ≤ (removeSC m k).capacity
        have : (removeSC m k).capacity = m.capacity := by rw [hrem]
        rw [this, hsize']
        have := hwf.sizeLe
        omega
      · intro i ch hch kv hkv
        have hcap : (removeSC m k).capacity = m.capacity := by rw [hrem]
        have hhash : (removeSC m k).hash = m.hash := by rw [hrem]
        rw [hcap, hhash]
        by_cases hie : i = m.hash k % m.capacity
        · subst hie
          rw [hgetset] at hch
          have hch' : newChain = ch := Option.some.inj hch
          subst hch'
          exact hwf.bucketOk _ chain hc kv (hsub.mem hkv)
        · rw [hmrbuckets, List.get?_set_ne _ _ (fun h => hie h.symm)] at hch
          exact hwf.bucketOk i ch hch kv hkv
      · show ((removeSC m k).buckets.flatten.map Prod.fst).Nodup
        obtain ⟨A, B, h1, h2⟩ := flatten_set_decomp m.buckets _ chain hc
        rw [hmrbuckets, h2 newChain]
        have hflsub : (A ++ (newChain ++ B)).Sublist (A ++ (chain ++ B)) :=
          ((hsub.append_right B).append_left A)
        rw [← h1] at hflsub
        exact (hflsub.map Prod.fst).nodup hwf.uniq
    refine ⟨hwfr, ?_, ?_, by rw [hrem], by rw [hrem], by rw [hsize']; omega, ?_⟩
    · have hcap : (removeSC m k).capacity = m.capacity := by rw [hrem]
      have hhash : (removeSC m k).hash = m.hash := by rw [hrem]
      rw [getSC, hcap, hhash, hgetset]
      simp only [Option.some_bind]
      rw [hnc]
      exact bucketFind_bucketRemove_self hchain_nd
    · intro k' hk'
      have hcap : (removeSC m k).capacity = m.capacity := by rw [hrem]
      have hhash : (removeSC m k).hash = m.hash := by rw [hrem]
      rw [getSC, getSC, hcap, hhash]
      by_cases hie : m.hash k' % m.capacity = m.hash k % m.capacity
      · rw [hie, hgetset, hc]
        simp only [Option.some_bind]
        rw [hnc]
        exact bucketFind_bucketRemove_ne chain hk'
      · rw [hmrbuckets, List.get?_set_ne _ _ (fun h => hie h.symm)]
    · intro hfalse
      rw [hbr] at hfalse
      simp at hfalse
  · have hrem : removeSC m k = m := by
      rw [removeSC, if_neg hbr]
    have hnone : getSC m k = none := by
      rw [contains_keySC_eq] at hbr
      cases hx : getSC m k with
      | none => rfl
      | some w => rw [hx] at hbr; simp at hbr
    exact ⟨by rw [hrem]; exact hwf, by rw [hrem]; exact hnone, fun k' _ => by rw [hrem],
      by rw [hrem], by rw [hrem], by rw [hrem], fun _ => hrem⟩

theorem clearSC_spec {V : Type} {m : SCMap V} (hwf : WFsc m) :
    WFsc (clearSC m) ∧ (∀ k, getSC (clearSC m) k = none) ∧
    (clearSC m).size = 0 ∧ (clearSC m).capacity = m.capacity ∧
    (clearSC m).hash = m.hash := by
  have hsum : sumLen (List.replicate m.capacity ([] : List (String × V))) = 0 := by
    rw [sumLen_eq_length_flatten, flatten_replicate_nil]
    rfl
  refine ⟨⟨?_, hwf.prime, ?_, ?_, ?_, ?_⟩, ?_, rfl, rfl, rfl⟩
  · show (List.replicate m.capacity []).length = m.capacity
    exact List.length_replicate _ _
  · show (0 : Nat) = sumLen (List.replicate m.capacity [])
    rw [hsum]
  · show (0 : Nat) ≤ m.capacity
    omega
  · intro i chain hchain kv hkv
    have : chain = [] := List.eq_of_mem_replicate (List.get?_mem hchain)
    subst this
    simp at hkv
  · show ((List.replicate m.capacity ([] : List (String × V))).flatten.map Prod.fst).Nodup
    rw [flatten_replicate_nil]
    exact List.nodup_nil
  · intro k
    rw [getSC]
    cases hx : (clearSC m).buckets.get? ((clearSC m).hash k % (clearSC m).capacity) with
    | none => rfl
    | some chain =>
      have : chain = [] := List.eq_of_mem_replicate (List.get?_mem hx)
      subst this
      rfl

theorem initSC_wf {V : Type} (capacity : Nat) (hash : String → Nat) :
    WFsc (@initSC V capacity hash) := by
  refine ⟨List.length_replicate _ _, next_prime_prime _, ?_, ?_, ?_, ?_⟩
  · show (0 : Nat) = sumLen (List.replicate (next_prime capacity) [])
    rw [sumLen_eq_length_flatten, flatten_replicate_nil]
    rfl
  · show (0 : Nat) ≤ next_prime capacity
    omega
  · intro i chain hchain kv hkv
    have : chain = [] := List.eq_of_mem_replicate (List.get?_mem hchain)
    subst this
    simp at hkv
  · show ((List.replicate (next_prime capacity) ([] : List (String × V))).flatten.map
      Prod.fst).Nodup
    rw [flatten_replicate_nil]
    exact List.nodup_nil

theorem applySC_wf {V : Type} {m : SCMap V} (hwf : WFsc m) (op : Op V) :
    WFsc (applySC m op) := by
  cases op with
  | put k v => exact (putSC_spec hwf k v).1
  | remove k => exact (removeSC_spec hwf k).1
  | resize n =>
    show WFsc (resizeSC m n)
    by_cases hn : 1 ≤ n
    · exact (resizeSC_spec hwf hn).1
    · have : n = 0 := by omega
      subst this
      have : resizeSC m 0 = m := by rw [resizeSC, if_pos (by omega)]
      rw [this]
      exact hwf
  | clear => exact (clearSC_spec hwf).1

theorem execSC_wf {V : Type} : ∀ (ops : List (Op V)) (m : SCMap V), WFsc m →
    WFsc (execSC m ops) := by
  intro ops
  induction ops with
  | nil => intro m hwf; exact hwf
  | cons op rest ih =>
    intro m hwf
    rw [execSC, List.foldl_cons]
    exact ih _ (applySC_wf hwf op)

theorem ReachSC_wf {V : Type} {m : SCMap V} (h : ReachSC m) : WFsc m := by
  obtain ⟨capacity, hash, ops, hexec⟩ := h
  rw [← hexec]
  exact execSC_wf ops _ (initSC_wf capacity hash)

/-! Tracking a single key through a sequence of chaining operations. -/

theorem applySC_get_track {V : Type} {m : SCMap V} (hwf : WFsc m) {k : String} {v : V}
    (op : Op V) (hop : ∀ v', op ≠ Op.put k v')
    (h : getSC m k = some v ∨ getSC m k = none) :
    getSC (applySC m op) k = some v ∨ getSC (applySC m op) k = none := by
  cases op with
  | put k' v' =>
    have hk' : k ≠ k' := by
      intro he
      exact hop v' (by rw [he])
    show getSC (putSC m k' v') k = some v ∨ getSC (putSC m k' v') k = none
    rw [(putSC_spec hwf k' v').2.2.1 k hk']
    exact h
  | remove k' =>
    show getSC (removeSC m k') k = some v ∨ getSC (removeSC m k') k = none
    by_cases hk' : k = k'
    · subst hk'
      exact Or.inr (removeSC_spec hwf k).2.1
    · rw [(removeSC_spec hwf k').2.2.1 k hk']
      exact h
  | resize n =>
    show getSC (resizeSC m n) k = some v ∨ getSC (resizeSC m n) k = none
    by_cases hn : 1 ≤ n
    · rw [(resizeSC_spec hwf hn).2.1 k]
      exact h
    · have : n = 0 := by omega
      subst this
      have : resizeSC m 0 = m := by rw [resizeSC, if_pos (by omega)]
      rw [this]
      exact h
  | clear =>
    exact Or.inr ((clearSC_spec hwf).2.1 k)

/-! Unfolding equations for the fuel-indexed probing operations. -/

theorem putF_zero {V : Type} (m : OAMap V) (k : String) (v : V) : putF 0 m k v = none := rfl

theorem resizeF_zero {V : Type} (m : OAMap V) (n : Nat) : resizeF 0 m n = none := rfl

theorem putF_succ {V : Type} (fuel : Nat) (m : OAMap V) (k : String) (v : V) :
    putF (fuel + 1) m k v =
      (if m.capacity ≤ 2 * m.size then resizeF fuel m (2 * m.capacity) else some m).bind
        fun m1 => (containsF (fuel + 1) m1 k).bind fun b =>
          if b then putOverLoop m1 k v (m1.hash k % m1.capacity) (fuel + 1) 0
          else putInsLoop m1 k v (m1.hash k % m1.capacity) (fuel + 1) 0 := rfl

theorem resizeF_succ {V : Type} (fuel : Nat) (m : OAMap V) (n : Nat) :
    resizeF (fuel + 1) m n =
      if n < m.size then some m
      else reinsertF fuel m.buckets
        ⟨List.replicate (if is_prime n then n else next_prime n) none,
          (if is_prime n then n else next_prime n), 0, m.hash⟩ := rfl

theorem reinsertF_nil {V : Type} (fuel : Nat) (acc : OAMap V) :
    reinsertF fuel [] acc = some acc := rfl

theorem reinsertF_cons {V : Type} (fuel : Nat) (slot : Option (HashEntry V))
    (rest : List (Option (HashEntry V))) (acc : OAMap V) :
    reinsertF fuel (slot :: rest) acc =
      (match slot with
        | some e => if e.is_tombstone then some acc else putF fuel acc e.key e.value
        | none => some acc).bind
        (fun acc' => reinsertF fuel rest acc') := rfl

/-! Lemmas about findLive, liveCount and livePairs. -/

theorem findLive_eq_none_iff {V : Type} {slots : List (Option (HashEntry V))} {k : String} :
    findLive slots k = none ↔
      ∀ c e, slots.get? c = some (some e) → e.is_tombstone = false → e.key ≠ k := by
  induction slots with
  | nil => simp [findLive]
  | cons s rest ih =>
    cases s with
    | some e =>
      by_cases hk : e.key == k ∧ e.is_tombstone = false
      · have hbeq : (e.key == k && !e.is_tombstone) = true := by
          simp [hk.1, hk.2]
        rw [findLive, if_pos hbeq]
        constructor
        · intro h; simp at h
        · intro h
          exact absurd (by simpa using hk.1) (h 0 e rfl hk.2)
      · have hbeq : ¬ (e.key == k && !e.is_tombstone) = true := by
          intro hx
          rw [Bool.and_eq_true] at hx
          exact hk ⟨hx.1, by simpa using hx.2⟩
        rw [findLive, if_neg hbeq]
        rw [ih]
        constructor
        · intro h c e' hc ht'
          match c with
          | 0 =>
            have : e = e' := by simpa using hc
            subst this
            intro hke
            exact hk ⟨by simpa using hke, ht'⟩
          | c + 1 =>
            exact h c e' (by simpa using hc) ht'
        · intro h c e' hc ht'
          exact h (c + 1) e' (by simpa using hc) ht'
    | none =>
      rw [findLive, ih]
      constructor
      · intro h c e' hc ht'
        match c with
        | 0 => simp at hc
        | c + 1 => exact h c e' (by simpa using hc) ht'
      · intro h c e' hc ht'
        exact h (c + 1) e' (by simpa using hc) ht'

theorem findLive_eq_some_of {V : Type} {slots : List (Option (HashEntry V))}
    {k : String} {v : V} (h : findLive slots k = some v) :
    ∃ c e, slots.get? c = some (some e) ∧ e.is_tombstone = false ∧ e.key = k ∧
      e.value = v := by
  induction slots with
  | nil => simp [findLive] at h
  | cons s rest ih =>
    cases s with
    | some e =>
      by_cases hbeq : (e.key == k && !e.is_tombstone) = true
      · rw [findLive, if_pos hbeq] at h
        rw [Bool.and_eq_true] at hbeq
        exact ⟨0, e, rfl, by simpa using hbeq.2, by simpa using hbeq.1,
          by simpa using h⟩
      · rw [findLive, if_neg hbeq] at h
        obtain ⟨c, e', hc, ht, hk, hv⟩ := ih h
        exact ⟨c + 1, e', by simpa using hc, ht, hk, hv⟩
    | none =>
      rw [findLive] at h
      obtain ⟨c, e', hc, ht, hk, hv⟩ := ih h
      exact ⟨c + 1, e', by simpa using hc, ht, hk, hv⟩

theorem findLive_eq_some_iff {V : Type} {slots : List (Option (HashEntry V))}
    (huniq : UniqKeys slots) {k : String} {v : V} :
    findLive slots k = some v ↔
      ∃ c e, slots.get? c = some (some e) ∧ e.is_tombstone = false ∧ e.key = k ∧
        e.value = v := by
  constructor
  · exact findLive_eq_some_of
  · rintro ⟨c, e, hc, ht, hk, hv⟩
    cases hx : findLive slots k with
    | none =>
      exact absurd hk (findLive_eq_none_iff.mp hx c e hc ht)
    | some v' =>
      obtain ⟨c', e', hc', ht', hk', hv'⟩ := findLive_eq_some_of hx
      have : c' = c := huniq c' c e' e hc' hc ht' ht (by rw [hk', hk])
      subst this
      rw [hc] at hc'
      have : e' = e := by simpa using hc'.symm
      subst this
      rw [← hv, hv']

theorem UniqKeys_cons {V : Type} {s : Option (HashEntry V)}
    {rest : List (Option (HashEntry V))} (h : UniqKeys (s :: rest)) : UniqKeys rest := by
  intro c₁ c₂ e₁ e₂ h1 h2 ht1 ht2 hk
  have := h (c₁ + 1) (c₂ + 1) e₁ e₂ (by simpa using h1) (by simpa using h2) ht1 ht2 hk
  omega

theorem findLive_eq_bucketFind_livePairs {V : Type} (slots : List (Option (HashEntry V)))
    (k : String) : findLive slots k = bucketFind (livePairs slots) k := by
  induction slots with
  | nil => rfl
  | cons s rest ih =>
    cases s with
    | some e =>
      by_cases ht : e.is_tombstone
      · have hbeq : ¬ (e.key == k && !e.is_tombstone) = true := by
          simp [ht]
        rw [findLive, if_neg hbeq, livePairs, if_pos ht]
        exact ih
      · rw [livePairs, if_neg ht]
        by_cases hk : e.key == k
        · have hbeq : (e.key == k && !e.is_tombstone) = true := by
            simp [hk, ht]
          rw [findLive, if_pos hbeq, bucketFind, if_pos hk]
        · have hbeq : ¬ (e.key == k && !e.is_tombstone) = true := by
            simp [hk]
          rw [findLive, if_neg hbeq, bucketFind, if_neg hk]
          exact ih
    | none =>
      rw [findLive, livePairs]
      exact ih

theorem liveCount_eq_length_livePairs {V : Type} (slots : List (Option (HashEntry V))) :
    liveCount slots = (livePairs slots).length := by
  induction slots with
  | nil => rfl
  | cons s rest ih =>
    cases s with
    | some e =>
      by_cases ht : e.is_tombstone
      · rw [liveCount, livePairs, if_pos ht, if_pos ht, ih]
        simp
      · rw [liveCount, livePairs, if_neg ht, if_neg ht]
        simp [ih]
        omega
    | none =>
      rw [liveCount, livePairs]
      exact ih

theorem mem_livePairs {V : Type} {slots : List (Option (HashEntry V))} {q : String × V} :
    q ∈ livePairs slots ↔
      ∃ c e, slots.get? c = some (some e) ∧ e.is_tombstone = false ∧ e.key = q.1 ∧
        e.value = q.2 := by
  induction slots with
  | nil => simp [livePairs]
  | cons s rest ih =>
    cases s with
    | some e =>
      by_cases ht : e.is_tombstone
      · rw [livePairs, if_pos ht, ih]
        constructor
        · rintro ⟨c, e', hc, hrest⟩
          exact ⟨c + 1, e', by simpa using hc, hrest⟩
        · rintro ⟨c, e', hc, ht', hrest⟩
          match c with
          | 0 =>
            have : e = e' := by simpa using hc
            subst this
            rw [ht] at ht'
            simp at ht'
          | c + 1 => exact ⟨c, e', by simpa using hc, ht', hrest⟩
      · rw [livePairs, if_neg ht, List.mem_cons, ih]
        constructor
        · rintro (heq | ⟨c, e', hc, hrest⟩)
          · subst heq
            exact ⟨0, e, rfl, by simpa using ht, rfl, rfl⟩
          · exact ⟨c + 1, e', by simpa using hc, hrest⟩
        · rintro ⟨c, e', hc, ht', hk, hv⟩
          match c with
          | 0 =>
            have : e = e' := by simpa using hc
            subst this
            left
            rw [hk, hv]
          | c + 1 => exact Or.inr ⟨c, e', by simpa using hc, ht', hk, hv⟩
    | none =>
      rw [livePairs, ih]
      constructor
      · rintro ⟨c, e', hc, hrest⟩
        exact ⟨c + 1, e', by simpa using hc, hrest⟩
      · rintro ⟨c, e', hc, hrest⟩
        match c with
        | 0 => simp at hc
        | c + 1 => exact ⟨c, e', by simpa using hc, hrest⟩

theorem livePairs_nodup {V : Type} {slots : List (Option (HashEntry V))}
    (huniq : UniqKeys slots) : ((livePairs slots).map Prod.fst).Nodup := by
  induction slots with
  | nil => exact List.nodup_nil
  | cons s rest ih =>
    cases s with
    | some e =>
      by_cases ht : e.is_tombstone
      · rw [livePairs, if_pos ht]
        exact ih (UniqKeys_cons huniq)
      · rw [livePairs, if_neg ht]
        rw [List.map_cons, List.nodup_cons]
        refine ⟨?_, ih (UniqKeys_cons huniq)⟩
        intro hmem
        obtain ⟨q, hq, hq1⟩ := List.mem_map.mp hmem
        obtain ⟨c, e', hc, ht', hk, hv⟩ := mem_livePairs.mp hq
        have := huniq 0 (c + 1) e e' rfl (by simpa using hc) (by simpa using ht) ht'
          (by rw [hk, hq1])
        omega
    | none =>
      rw [livePairs]
      exact ih (UniqKeys_cons huniq)

theorem liveCount_set {V : Type} :
    ∀ (slots : List (Option (HashEntry V))) (c : Nat) {s : Option (HashEntry V)}
      (s' : Option (HashEntry V)), slots.get? c = some s →
      liveCount (slots.set c s') + liveWeight s = liveCount slots + liveWeight s' := by
  intro slots
  induction slots with
  | nil => intro c s s' h; simp at h
  | cons s₀ rest ih =>
    intro c s s' h
    match c with
    | 0 =>
      have : s₀ = s := by simpa using h
      subst this
      show liveCount (s' :: rest) + liveWeight s₀ = liveCount (s₀ :: rest) + liveWeight s'
      cases s₀ <;> cases s' <;> simp [liveCount, liveWeight] <;> omega
    | c + 1 =>
      have h' : rest.get? c = some s := by simpa using h
      have := ih c s' h'
      show liveCount (s₀ :: rest.set c s') + liveWeight s = liveCount (s₀ :: rest) + liveWeight s'
      cases s₀ <;> simp [liveCount] <;> omega

theorem findLive_replicate_none {V : Type} (n : Nat) (k : String) :
    findLive (List.replicate n (none : Option (HashEntry V))) k = none := by
  induction n with
  | zero => rfl
  | succ n ih => simpa [List.replicate, findLive] using ih

theorem liveCount_replicate_none {V : Type} (n : Nat) :
    liveCount (List.replicate n (none : Option (HashEntry V))) = 0 := by
  induction n with
  | zero => rfl
  | succ n ih => simpa [List.replicate, liveCount] using ih

theorem get?_replicate_none {V : Type} {n c : Nat} {e : HashEntry V}
    (h : (List.replicate n (none : Option (HashEntry V))).get? c = some (some e)) :
    False := by
  have := List.get?_mem h
  have := List.eq_of_mem_replicate this
  simp at this

/-! Characterizations of the probe loops.  Each loop is analyzed relative to
a target step j₀ on the probe sequence whose predecessors hold entries with
other keys, exactly the situation the well-formedness invariant provides. -/

theorem getLoop_run {V : Type} (m : OAMap V) (k : String) (i : Nat) {j₀ : Nat}
    {e₀ : HashEntry V}
    (hj₀ : m.buckets.get? (probeIdx i m.capacity j₀) = some (some e₀))
    (hk₀ : e₀.key = k) (ht₀ : e₀.is_tombstone = false)
    (hpre : ∀ t < j₀, ∃ e', m.buckets.get? (probeIdx i m.capacity t) = some (some e') ∧
      e'.key ≠ k) :
    ∀ fuel j, j ≤ j₀ → j₀ + 1 ≤ j + fuel → getLoop m k i fuel j = some (some e₀.value) := by
  intro fuel
  induction fuel with
  | zero => intro j h1 h2; omega
  | succ n ih =>
    intro j h1 h2
    by_cases hj : j = j₀
    · subst hj
      have : getLoop m k i (n + 1) j =
          if (e₀.key == k && !e₀.is_tombstone) = true then some (some e₀.value)
          else getLoop m k i n (j + 1) := by
        rw [getLoop, hj₀]
      rw [this, if_pos (by simp [hk₀, ht₀])]
    · obtain ⟨e', he', hne⟩ := hpre j (by omega)
      have : getLoop m k i (n + 1) j =
          if (e'.key == k && !e'.is_tombstone) = true then some (some e'.value)
          else getLoop m k i n (j + 1) := by
        rw [getLoop, he']
      rw [this, if_neg (by simp [hne])]
      exact ih (j + 1) (by omega) (by omega)

theorem containsLoop_run {V : Type} (m : OAMap V) (k : String) (i : Nat) {j₀ : Nat}
    {e₀ : HashEntry V}
    (hj₀ : m.buckets.get? (probeIdx i m.capacity j₀) = some (some e₀))
    (hk₀ : e₀.key = k) (ht₀ : e₀.is_tombstone = false)
    (hpre : ∀ t < j₀, ∃ e', m.buckets.get? (probeIdx i m.capacity t) = some (some e') ∧
      e'.key ≠ k) :
    ∀ fuel j, j ≤ j₀ → j₀ + 1 ≤ j + fuel → containsLoop m k i fuel j = some true := by
  intro fuel
  induction fuel with
  | zero => intro j h1 h2; omega
  | succ n ih =>
    intro j h1 h2
    by_cases hj : j = j₀
    · subst hj
      have : containsLoop m k i (n + 1) j =
          if (e₀.key == k && !e₀.is_tombstone) = true then some true
          else containsLoop m k i n (j + 1) := by
        rw [containsLoop, hj₀]
      rw [this, if_pos (by simp [hk₀, ht₀])]
    · obtain ⟨e', he', hne⟩ := hpre j (by omega)
      have : containsLoop m k i (n + 1) j =
          if (e'.key == k && !e'.is_tombstone) = true then some true
          else containsLoop m k i n (j + 1) := by
        rw [containsLoop, he']
      rw [this, if_neg (by simp [hne])]
      exact ih (j + 1) (by omega) (by omega)

theorem containsLoop_true_inv {V : Type} (m : OAMap V) (k : String) (i : Nat) :
    ∀ fuel j, containsLoop m k i fuel j = some true →
      ∃ t e, m.buckets.get? (probeIdx i m.capacity t) = some (some e) ∧
        e.key = k ∧ e.is_tombstone = false := by
  intro fuel
  induction fuel with
  | zero => intro j h; simp [containsLoop] at h
  | succ n ih =>
    intro j h
    cases hx : m.buckets.get? (probeIdx i m.capacity j) with
    | none =>
      have hstep : containsLoop m k i (n + 1) j = none := by rw [containsLoop, hx]
      rw [hstep] at h
      simp at h
    | some s =>
      cases s with
      | none =>
        have hstep : containsLoop m k i (n + 1) j = some false := by rw [containsLoop, hx]
        rw [hstep] at h
        simp at h
      | some e =>
        have hstep : containsLoop m k i (n + 1) j =
            if (e.key == k && !e.is_tombstone) = true then some true
            else containsLoop m k i n (j + 1) := by
          rw [containsLoop, hx]
        rw [hstep] at h
        by_cases hcond : (e.key == k && !e.is_tombstone) = true
        · rw [Bool.and_eq_true] at hcond
          exact ⟨j, e, hx, by simpa using hcond.1, by simpa using hcond.2⟩
        · rw [if_neg hcond] at h
          exact ih (j + 1) h

theorem containsLoop_ne_false {V : Type} (m : OAMap V) (k : String) (i : Nat) {j₀ : Nat}
    {e₀ : HashEntry V}
    (hj₀ : m.buckets.get? (probeIdx i m.capacity j₀) = some (some e₀))
    (hk₀ : e₀.key = k) (ht₀ : e₀.is_tombstone = false)
    (hpre : ∀ t < j₀, ∃ e', m.buckets.get? (probeIdx i m.capacity t) = some (some e') ∧
      e'.key ≠ k) :
    ∀ fuel j, j ≤ j₀ → containsLoop m k i fuel j ≠ some false := by
  intro fuel
  induction fuel with
  | zero => intro j h1; simp [containsLoop]
  | succ n ih =>
    intro j h1
    by_cases hj : j = j₀
    · subst hj
      have : containsLoop m k i (n + 1) j =
          if (e₀.key == k && !e₀.is_tombstone) = true then some true
          else containsLoop m k i n (j + 1) := by
        rw [containsLoop, hj₀]
      rw [this, if_pos (by simp [hk₀, ht₀])]
      simp
    · obtain ⟨e', he', hne⟩ := hpre j (by omega)
      have : containsLoop m k i (n + 1) j =
          if (e'.key == k && !e'.is_tombstone) = true then some true
          else containsLoop m k i n (j + 1) := by
        rw [containsLoop, he']
      rw [this, if_neg (by simp [hne])]
      exact ih (j + 1) (by omega)

theorem putOverLoop_char {V : Type} (m : OAMap V) (k : String) (v : V) (i : Nat) {j₀ : Nat}
    {e₀ : HashEntry V}
    (hj₀ : m.buckets.get? (probeIdx i m.capacity j₀) = some (some e₀))
    (hk₀ : e₀.key = k)
    (hpre : ∀ t < j₀, ∃ e', m.buckets.get? (probeIdx i m.capacity t) = some (some e') ∧
      e'.key ≠ k) :
    ∀ fuel j m', j ≤ j₀ → putOverLoop m k v i fuel j = some m' →
      m' = { m with
        buckets := m.buckets.set (probeIdx i m.capacity j₀)
          (some { e₀ with value := v }) } := by
  intro fuel
  induction fuel with
  | zero => intro j m' h1 h2; simp [putOverLoop] at h2
  | succ n ih =>
    intro j m' h1 h2
    by_cases hj : j = j₀
    · subst hj
      have hstep : putOverLoop m k v i (n + 1) j =
          if (e₀.key == k) = true then
            some { m with
              buckets := m.buckets.set (probeIdx i m.capacity j)
                (some { e₀ with value := v }) }
          else putOverLoop m k v i n (j + 1) := by
        rw [putOverLoop, hj₀]
      rw [hstep, if_pos (by simp [hk₀])] at h2
      exact (Option.some.inj h2).symm
    · obtain ⟨e', he', hne⟩ := hpre j (by omega)
      have hstep : putOverLoop m k v i (n + 1) j =
          if (e'.key == k) = true then
            some { m with
              buckets := m.buckets.set (probeIdx i m.capacity j)
                (some { e' with value := v }) }
          else putOverLoop m k v i n (j + 1) := by
        rw [putOverLoop, he']
      rw [hstep, if_neg (by simp [hne])] at h2
      exact ih (j + 1) m' (by omega) h2

theorem putInsLoop_char {V : Type} (m : OAMap V) (k : String) (v : V) (i : Nat) :
    ∀ fuel j m', putInsLoop m k v i fuel j = some m' →
      (∀ t < j, ∃ e', m.buckets.get? (probeIdx i m.capacity t) = some (some e') ∧
        e'.is_tombstone = false) →
      ∃ j₀, j ≤ j₀ ∧
        (∀ t < j₀, ∃ e', m.buckets.get? (probeIdx i m.capacity t) = some (some e') ∧
          e'.is_tombstone = false) ∧
        (m.buckets.get? (probeIdx i m.capacity j₀) = some none ∨
          ∃ e₀, m.buckets.get? (probeIdx i m.capacity j₀) = some (some e₀) ∧
            e₀.is_tombstone = true) ∧
        m' = { m with
          buckets := m.buckets.set (probeIdx i m.capacity j₀) (some ⟨k, v, false⟩)
          size := m.size + 1 } := by
  intro fuel
  induction fuel with
  | zero => intro j m' h2 _; simp [putInsLoop] at h2
  | succ n ih =>
    intro j m' h2 hpre
    cases hx : m.buckets.get? (probeIdx i m.capacity j) with
    | none =>
      have : putInsLoop m k v i (n + 1) j = none := by rw [putInsLoop, hx]
      rw [this] at h2
      simp at h2
    | some s =>
      cases s with
      | none =>
        have hstep : putInsLoop m k v i (n + 1) j = some { m with
            buckets := m.buckets.set (probeIdx i m.capacity j) (some ⟨k, v, false⟩)
            size := m.size + 1 } := by
          rw [putInsLoop, hx]
        rw [hstep] at h2
        exact ⟨j, le_refl _, hpre, Or.inl hx, (Option.some.inj h2).symm⟩
      | some e =>
        have hstep0 : putInsLoop m k v i (n + 1) j =
            if e.is_tombstone then some { m with
              buckets := m.buckets.set (probeIdx i m.capacity j) (some ⟨k, v, false⟩)
              size := m.size + 1 }
            else putInsLoop m k v i n (j + 1) := by
          rw [putInsLoop, hx]
        by_cases ht : e.is_tombstone
        · rw [hstep0, if_pos ht] at h2
          exact ⟨j, le_refl _, hpre, Or.inr ⟨e, hx, ht⟩, (Option.some.inj h2).symm⟩
        · rw [hstep0, if_neg ht] at h2
          obtain ⟨j₀, hj₀le, hj₀pre, hvac, hm'⟩ := ih (j + 1) m' h2 (by
            intro t htlt
            by_cases hte : t = j
            · subst hte
              exact ⟨e, hx, by simpa using ht⟩
            · exact hpre t (by omega))
          exact ⟨j₀, by omega, hj₀pre, hvac, hm'⟩

theorem removeLoop_char_live {V : Type} (m : OAMap V) (k : String) (i : Nat) {j₀ : Nat}
    {e₀ : HashEntry V}
    (hj₀ : m.buckets.get? (probeIdx i m.capacity j₀) = some (some e₀))
    (hk₀ : e₀.key = k) (ht₀ : e₀.is_tombstone = false)
    (hpre : ∀ t < j₀, ∃ e', m.buckets.get? (probeIdx i m.capacity t) = some (some e') ∧
      e'.key ≠ k) :
    ∀ fuel j m', j ≤ j₀ → removeLoop m k i fuel j = some m' →
      m' = { m with
        buckets := m.buckets.set (probeIdx i m.capacity j₀)
          (some { e₀ with is_tombstone := true })
        size := m.size - 1 } := by
  intro fuel
  induction fuel with
  | zero => intro j m' h1 h2; simp [removeLoop] at h2
  | succ n ih =>
    intro j m' h1 h2
    by_cases hj : j = j₀
    · subst hj
      have hstep : removeLoop m k i (n + 1) j =
          if (e₀.key == k) = true then
            if e₀.is_tombstone then some m
            else some { m with
              buckets := m.buckets.set (probeIdx i m.capacity j)
                (some { e₀ with is_tombstone := true })
              size := m.size - 1 }
          else removeLoop m k i n (j + 1) := by
        rw [removeLoop, hj₀]
      rw [hstep, if_pos (by simp [hk₀]), ht₀] at h2
      simp only [Bool.false_eq_true, if_false] at h2
      exact (Option.some.inj h2).symm
    · obtain ⟨e', he', hne⟩ := hpre j (by omega)
      have hstep : removeLoop m k i (n + 1) j =
          if (e'.key == k) = true then
            if e'.is_tombstone then some m
            else some { m with
              buckets := m.buckets.set (probeIdx i m.capacity j)
                (some { e' with is_tombstone := true })
              size := m.size - 1 }
          else removeLoop m k i n (j + 1) := by
        rw [removeLoop, he']
      rw [hstep, if_neg (by simp [hne])] at h2
      exact ih (j + 1) m' (by omega) h2

theorem removeLoop_char_nolive {V : Type} (m : OAMap V) (k : String) (i : Nat)
    (hno : findLive m.buckets k = none) :
    ∀ fuel j m', removeLoop m k i fuel j = some m' → m' = m := by
  have hnone := findLive_eq_none_iff.mp hno
  intro fuel
  induction fuel with
  | zero => intro j m' h2; simp [removeLoop] at h2
  | succ n ih =>
    intro j m' h2
    cases hx : m.buckets.get? (probeIdx i m.capacity j) with
    | none =>
      have : removeLoop m k i (n + 1) j = none := by rw [removeLoop, hx]
      rw [this] at h2
      simp at h2
    | some s =>
      cases s with
      | none =>
        have : removeLoop m k i (n + 1) j = some m := by rw [removeLoop, hx]
        rw [this] at h2
        exact (Option.some.inj h2).symm
      | some e =>
        by_cases hkey : (e.key == k) = true
        · have hkeq : e.key = k := by simpa using hkey
          have ht : e.is_tombstone = true := by
            by_cases hte : e.is_tombstone
            · exact hte
            · exact absurd hkeq (hnone _ e hx (by simpa using hte))
          have hstep0 : removeLoop m k i (n + 1) j =
              if (e.key == k) = true then
                if e.is_tombstone then some m
                else some { m with
                  buckets := m.buckets.set (probeIdx i m.capacity j)
                    (some { e with is_tombstone := true })
                  size := m.size - 1 }
              else removeLoop m k i n (j + 1) := by
            rw [removeLoop, hx]
          rw [hstep0, if_pos hkey, ht] at h2
          simp only [if_true] at h2
          exact (Option.some.inj h2).symm
        · have hstep0 : removeLoop m k i (n + 1) j =
              if (e.key == k) = true then
                if e.is_tombstone then some m
                else some { m with
                  buckets := m.buckets.set (probeIdx i m.capacity j)
                    (some { e with is_tombstone := true })
                  size := m.size - 1 }
              else removeLoop m k i n (j + 1) := by
            rw [removeLoop, hx]
          rw [hstep0, if_neg hkey] at h2
          exact ih (j + 1) m' h2

theorem probeIdx_mod {i cap : Nat} (hcap : 0 < cap) (j : Nat) :
    probeIdx i cap (j % cap) = probeIdx i cap j := by
  unfold probeIdx
  conv_rhs => rw [Nat.add_mod, Nat.mul_mod]
  conv_lhs => rw [Nat.add_mod, Nat.mul_mod]
  rw [Nat.mod_mod_of_dvd _ (dvd_refl cap)]

/-! Effect of a single slot update on findLive and on the invariant clauses. -/

theorem findLive_set_untouched {V : Type} :
    ∀ (slots : List (Option (HashEntry V))) (c : Nat) (s' : Option (HashEntry V)) (k' : String),
      (∀ e', s' = some e' → e'.is_tombstone = false → e'.key ≠ k') →
      (∀ e, slots.get? c = some (some e) → e.is_tombstone = false → e.key ≠ k') →
      findLive (slots.set c s') k' = findLive slots k' := by
  intro slots
  induction slots with
  | nil => intro c s' k' _ _; rfl
  | cons s₀ rest ih =>
    intro c s' k' hs' hold
    match c with
    | 0 =>
      show findLive (s' :: rest) k' = findLive (s₀ :: rest) k'
      have hL : findLive (s' :: rest) k' = findLive rest k' := by
        cases s' with
        | none => rfl
        | some e' =>
          rw [findLive, if_neg]
          intro hx
          rw [Bool.and_eq_true] at hx
          exact hs' e' rfl (by simpa using hx.2) (by simpa using hx.1)
      have hR : findLive (s₀ :: rest) k' = findLive rest k' := by
        cases s₀ with
        | none => rfl
        | some e =>
          rw [findLive, if_neg]
          intro hx
          rw [Bool.and_eq_true] at hx
          exact hold e rfl (by simpa using hx.2) (by simpa using hx.1)
      rw [hL, hR]
    | c + 1 =>
      show findLive (s₀ :: rest.set c s') k' = findLive (s₀ :: rest) k'
      cases s₀ with
      | none =>
        rw [findLive, findLive]
        exact ih c s' k' hs' (by intro e he ht; exact hold e (by simpa using he) ht)
      | some e =>
        by_cases hx : (e.key == k' && !e.is_tombstone) = true
        · rw [findLive, if_pos hx, findLive, if_pos hx]
        · rw [findLive, if_neg hx, findLive, if_neg hx]
          exact ih c s' k' hs' (by intro e' he ht; exact hold e' (by simpa using he) ht)

theorem findLive_set_of_none {V : Type} :
    ∀ (slots : List (Option (HashEntry V))) (c : Nat), c < slots.length →
      ∀ (k : String) (v : V), findLive slots k = none →
      findLive (slots.set c (some ⟨k, v, false⟩)) k = some v := by
  intro slots
  induction slots with
  | nil => intro c hc; simp at hc
  | cons s₀ rest ih =>
    intro c hc k v hno
    match c with
    | 0 =>
      show findLive (some ⟨k, v, false⟩ :: rest) k = some v
      rw [findLive, if_pos (by simp)]
    | c + 1 =>
      show findLive (s₀ :: rest.set c (some ⟨k, v, false⟩)) k = some v
      cases s₀ with
      | none =>
        rw [findLive]
        rw [findLive] at hno
        exact ih c (by simpa using hc) k v hno
      | some e =>
        by_cases hx : (e.key == k && !e.is_tombstone) = true
        · rw [findLive, if_pos hx] at hno
          simp at hno
        · rw [findLive, if_neg hx] at hno
          rw [findLive, if_neg hx]
          exact ih c (by simpa using hc) k v hno

theorem findLive_set_value {V : Type} :
    ∀ (slots : List (Option (HashEntry V))) (c : Nat) {e : HashEntry V} (v : V),
      UniqKeys slots → slots.get? c = some (some e) → e.is_tombstone = false →
      findLive (slots.set c (some { e with value := v })) e.key = some v := by
  intro slots
  induction slots with
  | nil => intro c e v _ hc; simp at hc
  | cons s₀ rest ih =>
    intro c e v huniq hc ht
    match c with
    | 0 =>
      have : s₀ = some e := by simpa using hc
      subst this
      show findLive (some { e with value := v } :: rest) e.key = some v
      rw [findLive, if_pos (by simp [ht])]
    | c + 1 =>
      have hc' : rest.get? c = some (some e) := by simpa using hc
      show findLive (s₀ :: rest.set c (some { e with value := v })) e.key = some v
      cases s₀ with
      | none =>
        rw [findLive]
        exact ih c v (UniqKeys_cons huniq) hc' ht
      | some e₀ =>
        have hx : ¬ (e₀.key == e.key && !e₀.is_tombstone) = true := by
          intro hx
          rw [Bool.and_eq_true] at hx
          have := huniq 0 (c + 1) e₀ e rfl (by simpa using hc') (by simpa using hx.2) ht
            (by simpa using hx.1)
          omega
        rw [findLive, if_neg hx]
        exact ih c v (UniqKeys_cons huniq) hc' ht

theorem probeOk_set_same_key {V : Type} (hash : String → Nat) (cap : Nat)
    (slots : List (Option (HashEntry V))) (c : Nat) {e enew : HashEntry V}
    (hc : slots.get? c = some (some e))
    (hkey : enew.key = e.key)
    (hlive : enew.is_tombstone = false → e.is_tombstone = false)
    (hOk : ∀ c' e', slots.get? c' = some (some e') → e'.is_tombstone = false →
      ∃ j < cap, probeIdx (hash e'.key % cap) cap j = c' ∧
        ∀ j' < j, ∃ e'', slots.get? (probeIdx (hash e'.key % cap) cap j') = some (some e'') ∧
          e''.key ≠ e'.key) :
    ∀ c' e', (slots.set c (some enew)).get? c' = some (some e') → e'.is_tombstone = false →
      ∃ j < cap, probeIdx (hash e'.key % cap) cap j = c' ∧
        ∀ j' < j, ∃ e'', (slots.set c (some enew)).get? (probeIdx (hash e'.key % cap) cap j') =
          some (some e'') ∧ e''.key ≠ e'.key := by
  have hclen : c < slots.length := by
    cases hlt : Nat.decLt c slots.length with
    | isTrue h => exact h
    | isFalse h =>
      exfalso
      rw [List.get?_eq_none.mpr (by omega)] at hc
      simp at hc
  intro c' e' h' ht'
  by_cases hcc : c' = c
  · subst hcc
    rw [List.get?_set_eq_of_lt _ hclen] at h'
    have he' : e' = enew := by simpa using h'.symm
    subst he'
    obtain ⟨j, hjlt, hjeq, hjpre⟩ := hOk c' e hc (hlive ht')
    refine ⟨j, hjlt, by rw [hkey]; exact hjeq, ?_⟩
    intro j' hj'
    obtain ⟨e'', he'', hne⟩ := hjpre j' hj'
    rw [hkey]
    have hidxne : probeIdx (hash e.key % cap) cap j' ≠ c' := by
      intro hix
      rw [hix, hc] at he''
      have : e = e'' := by simpa using he''
      subst this
      exact hne rfl
    rw [List.get?_set_ne _ _ (fun h => hidxne h.symm)]
    exact ⟨e'', he'', hne⟩
  · rw [List.get?_set_ne _ _ (fun h => hcc h.symm)] at h'
    obtain ⟨j, hjlt, hjeq, hjpre⟩ := hOk c' e' h' ht'
    refine ⟨j, hjlt, hjeq, ?_⟩
    intro j' hj'
    obtain ⟨e'', he'', hne⟩ := hjpre j' hj'
    by_cases hix : probeIdx (hash e'.key % cap) cap j' = c
    · rw [hix, hc] at he''
      have : e = e'' := by simpa using he''
      subst this
      refine ⟨enew, ?_, by rw [hkey]; exact hne⟩
      rw [hix]
      exact List.get?_set_eq_of_lt _ hclen
    · rw [List.get?_set_ne _ _ (fun h => hix h.symm)]
      exact ⟨e'', he'', hne⟩

theorem uniq_set_same_key {V : Type} (slots : List (Option (HashEntry V))) (c : Nat)
    {e enew : HashEntry V}
    (hc : slots.get? c = some (some e)) (hkey : enew.key = e.key)
    (hlive : enew.is_tombstone = false → e.is_tombstone = false)
    (huniq : UniqKeys slots) : UniqKeys (slots.set c (some enew)) := by
  have hclen : c < slots.length := by
    cases hlt : Nat.decLt c slots.length with
    | isTrue h => exact h
    | isFalse h =>
      exfalso
      rw [List.get?_eq_none.mpr (by omega)] at hc
      simp at hc
  intro c₁ c₂ e₁ e₂ h1 h2 ht1 ht2 hk
  by_cases hc1 : c₁ = c <;> by_cases hc2 : c₂ = c
  · rw [hc1, hc2]
  · subst hc1
    rw [List.get?_set_eq_of_lt _ hclen] at h1
    have : e₁ = enew := by simpa using h1.symm
    subst this
    rw [List.get?_set_ne _ _ (fun h => hc2 h.symm)] at h2
    exact huniq c₁ c₂ e e₂ hc h2 (hlive ht1) ht2 (by rw [← hkey, hk])
  · subst hc2
    rw [List.get?_set_eq_of_lt _ hclen] at h2
    have : e₂ = enew := by simpa using h2.symm
    subst this
    rw [List.get?_set_ne _ _ (fun h => hc1 h.symm)] at h1
    exact huniq c₁ c₂ e₁ e h1 hc ht1 (hlive ht2) (by rw [hk, hkey])
  · rw [List.get?_set_ne _ _ (fun h => hc1 h.symm)] at h1
    rw [List.get?_set_ne _ _ (fun h => hc2 h.symm)] at h2
    exact huniq c₁ c₂ e₁ e₂ h1 h2 ht1 ht2 hk

theorem uniq_set_fresh {V : Type} (slots : List (Option (HashEntry V))) (c : Nat)
    (k : String) (v : V)
    (hno : ∀ c' e', slots.get? c' = some (some e') → e'.is_tombstone = false → e'.key ≠ k)
    (huniq : UniqKeys slots) : UniqKeys (slots.set c (some ⟨k, v, false⟩)) := by
  intro c₁ c₂ e₁ e₂ h1 h2 ht1 ht2 hk
  by_cases hc1 : c₁ = c <;> by_cases hc2 : c₂ = c
  · rw [hc1, hc2]
  · subst hc1
    have hcl : c₁ < slots.length := by
      by_cases hx : c₁ < slots.length
      · exact hx
      · exfalso
        rw [List.set_eq_of_length_le (by omega), List.get?_eq_none.mpr (by omega)] at h1
        simp at h1
    rw [List.get?_set_eq_of_lt _ hcl] at h1
    have : e₁ = ⟨k, v, false⟩ := by simpa using h1.symm
    subst this
    rw [List.get?_set_ne _ _ (fun h => hc2 h.symm)] at h2
    exact absurd hk.symm (hno c₂ e₂ h2 ht2)
  · subst hc2
    have hcl : c₂ < slots.length := by
      by_cases hx : c₂ < slots.length
      · exact hx
      · exfalso
        rw [List.set_eq_of_length_le (by omega), List.get?_eq_none.mpr (by omega)] at h2
        simp at h2
    rw [List.get?_set_eq_of_lt _ hcl] at h2
    have : e₂ = ⟨k, v, false⟩ := by simpa using h2.symm
    subst this
    rw [List.get?_set_ne _ _ (fun h => hc1 h.symm)] at h1
    exact absurd hk (hno c₁ e₁ h1 ht1)
  · rw [List.get?_set_ne _ _ (fun h => hc1 h.symm)] at h1
    rw [List.get?_set_ne _ _ (fun h => hc2 h.symm)] at h2
    exact huniq c₁ c₂ e₁ e₂ h1 h2 ht1 ht2 hk

/-! Specifications of the probing lookups and of remove. -/

theorem wfoa_cappos {V : Type} {m : OAMap V} (hwf : WFoa m) : 0 < m.capacity := by
  have := hwf.prime.two_le
  omega

theorem probeOk_of_live {V : Type} {m : OAMap V} (hwf : WFoa m) {c : Nat} {e : HashEntry V}
    (hc : m.buckets.get? c = some (some e)) (ht : e.is_tombstone = false) {k : String}
    (hk : e.key = k) :
    ∃ j < m.capacity, probeIdx (m.hash k % m.capacity) m.capacity j = c ∧
      ∀ j' < j, ∃ e', m.buckets.get? (probeIdx (m.hash k % m.capacity) m.capacity j') =
        some (some e') ∧ e'.key ≠ k := by
  obtain ⟨j, hjlt, hjeq, hjpre⟩ := hwf.probeOk c e hc ht
  rw [hk] at hjeq hjpre
  exact ⟨j, hjlt, hjeq, fun j' hj' => by
    obtain ⟨e', he', hne⟩ := hjpre j' hj'
    exact ⟨e', he', hne⟩⟩

theorem containsF_spec {V : Type} {m : OAMap V} (hwf : WFoa m) (k : String) {fuel : Nat}
    {b : Bool} (h : containsF fuel m k = some b) :
    b = true ↔ findLive m.buckets k ≠ none := by
  constructor
  · intro hb
    subst hb
    obtain ⟨t, e, ht, hk, htomb⟩ := containsLoop_true_inv m k (m.hash k % m.capacity) fuel 0 h
    intro hno
    exact findLive_eq_none_iff.mp hno _ e ht htomb hk
  · intro hne
    cases hl : findLive m.buckets k with
    | none => exact absurd hl hne
    | some v =>
      obtain ⟨c, e, hc, htomb, hk, hv⟩ := findLive_eq_some_of hl
      obtain ⟨j₀, hj₀lt, hj₀eq, hj₀pre⟩ := probeOk_of_live hwf hc htomb hk
      cases b with
      | true => rfl
      | false =>
        exact absurd h (containsLoop_ne_false m k (m.hash k % m.capacity)
          (by rw [hj₀eq]; exact hc) hk htomb hj₀pre fuel 0 (by omega))

theorem containsF_run {V : Type} {m : OAMap V} (hwf : WFoa m) {k : String} {v : V}
    (h : findLive m.buckets k = some v) :
    containsF m.capacity m k = some true := by
  obtain ⟨c, e, hc, htomb, hk, hv⟩ := findLive_eq_some_of h
  obtain ⟨j₀, hj₀lt, hj₀eq, hj₀pre⟩ := probeOk_of_live hwf hc htomb hk
  exact containsLoop_run m k (m.hash k % m.capacity) (by rw [hj₀eq]; exact hc) hk htomb
    hj₀pre m.capacity 0 (by omega) (by omega)

theorem getF_run {V : Type} {m : OAMap V} (hwf : WFoa m) {k : String} {v : V}
    (h : findLive m.buckets k = some v) :
    getF m.capacity m k = some (some v) := by
  obtain ⟨c, e, hc, htomb, hk, hv⟩ := findLive_eq_some_of h
  obtain ⟨j₀, hj₀lt, hj₀eq, hj₀pre⟩ := probeOk_of_live hwf hc htomb hk
  have := getLoop_run m k (m.hash k % m.capacity) (by rw [hj₀eq]; exact hc) hk htomb
    hj₀pre m.capacity 0 (by omega) (by omega)
  rw [getF, this, hv]

theorem liveCount_pos {V : Type} {slots : List (Option (HashEntry V))} {c : Nat}
    {e : HashEntry V} (hc : slots.get? c = some (some e)) (ht : e.is_tombstone = false) :
    1 ≤ liveCount slots := by
  rw [liveCount_eq_length_livePairs]
  have : (e.key, e.value) ∈ livePairs slots := mem_livePairs.mpr ⟨c, e, hc, ht, rfl, rfl⟩
  cases hx : livePairs slots with
  | nil => rw [hx] at this; simp at this
  | cons a l => simp

theorem removeF_spec {V : Type} {m : OAMap V} (hwf : WFoa m) (k : String) {fuel : Nat}
    {m' : OAMap V} (h : removeF fuel m k = some m') :
    WFoa m' ∧ m'.hash = m.hash ∧ m'.capacity = m.capacity ∧
    findLive m'.buckets k = none ∧
    (∀ k', k' ≠ k → findLive m'.buckets k' = findLive m.buckets k') ∧
    m'.size ≤ m.size := by
  cases hl : findLive m.buckets k with
  | none =>
    have hm' : m' = m := removeLoop_char_nolive m k (m.hash k % m.capacity) hl fuel 0 m' h
    subst hm'
    exact ⟨hwf, rfl, rfl, hl, fun _ _ => rfl, le_refl _⟩
  | some v =>
    obtain ⟨c, e, hc, htomb, hk, hv⟩ := findLive_eq_some_of hl
    obtain ⟨j₀, hj₀lt, hj₀eq, hj₀pre⟩ := probeOk_of_live hwf hc htomb hk
    have hm' := removeLoop_char_live m k (m.hash k % m.capacity)
      (by rw [hj₀eq]; exact hc) hk htomb hj₀pre fuel 0 m' (by omega) h
    have hcset : probeIdx (m.hash k % m.capacity) m.capacity j₀ = c := hj₀eq
    rw [hcset] at hm'
    have hlc := liveCount_set m.buckets c (some { e with is_tombstone := true }) hc
    have hlc1 := liveCount_pos hc htomb
    have hbuckets' : m'.buckets = m.buckets.set c (some { e with is_tombstone := true }) := by
      rw [hm']
    have hsize' : m'.size = m.size - 1 := by rw [hm']
    have hcap' : m'.capacity = m.capacity := by rw [hm']
    have hhash' : m'.hash = m.hash := by rw [hm']
    have hwf' : WFoa m' := by
      refine ⟨?_, ?_, ?_, ?_, ?_, ?_⟩
      · rw [hbuckets', List.length_set, hcap']
        exact hwf.len
      · rw [hcap']; exact hwf.prime
      · rw [hsize', hbuckets']
        have hsz := hwf.sizeEq
        have hw1 : liveWeight (some e) = 1 := by simp [liveWeight, htomb]
        have hw2 : liveWeight (some { e with is_tombstone := true }) = 0 := by
          simp [liveWeight]
        omega
      · rw [hsize', hcap']
        have := hwf.load
        omega
      · rw [hbuckets', hcap', hhash']
        exact probeOk_set_same_key m.hash m.capacity m.buckets c hc rfl
          (by intro hx; simp at hx) hwf.probeOk
      · rw [hbuckets']
        exact uniq_set_same_key m.buckets c hc rfl (by intro hx; simp at hx) hwf.uniq
    refine ⟨hwf', hhash', hcap', ?_, ?_, by rw [hsize']; omega⟩
    · rw [hbuckets']
      rw [findLive_eq_none_iff]
      intro c' e' hc' ht'
      by_cases hcc : c' = c
      · subst hcc
        have hclen : c' < m.buckets.length := by
          by_cases hx : c' < m.buckets.length
          · exact hx
          · exfalso
            rw [List.get?_eq_none.mpr (by omega)] at hc
            simp at hc
        rw [List.get?_set_eq_of_lt _ hclen] at hc'
        have : e' = { e with is_tombstone := true } := by simpa using hc'.symm
        subst this
        simp at ht'
      · rw [List.get?_set_ne _ _ (fun hx => hcc hx.symm)] at hc'
        intro hke
        exact hcc (hwf.uniq c' c e' e hc' hc ht' htomb (by rw [hke, hk]))
    · intro k' hk'
      rw [hbuckets']
      exact findLive_set_untouched m.buckets c _ k'
        (by
          intro e' he' ht'
          have : e' = { e with is_tombstone := true } := by simpa using he'.symm
          subst this
          simp at ht')
        (by
          intro e₀ he₀ ht₀
          have : e₀ = e := by
            rw [hc] at he₀
            simpa using he₀.symm
          subst this
          rw [hk]
          exact fun hx => hk' hx.symm)

/-! The mutual specification of put and resize for the probing table. -/

theorem reinsertF_spec {V : Type} {fuel : Nat}
    (hput : ∀ (m : OAMap V) (k : String) (v : V) (m' : OAMap V),
      WFoa m → putF fuel m k v = some m' →
      WFoa m' ∧ m'.hash = m.hash ∧ m.capacity ≤ m'.capacity ∧
      findLive m'.buckets k = some v ∧
      (∀ k', k' ≠ k → findLive m'.buckets k' = findLive m.buckets k') ∧
      (findLive m.buckets k = none → m'.size = m.size + 1) ∧
      (findLive m.buckets k ≠ none → m'.size = m.size)) :
    ∀ (slots : List (Option (HashEntry V))) (acc acc' : OAMap V), WFoa acc →
      ((livePairs slots).map Prod.fst).Nodup →
      (∀ q ∈ livePairs slots, findLive acc.buckets q.1 = none) →
      reinsertF fuel slots acc = some acc' →
      WFoa acc' ∧ acc'.hash = acc.hash ∧ acc.capacity ≤ acc'.capacity ∧
      (∀ k, findLive acc'.buckets k =
        match findLive acc.buckets k with
        | some v => some v
        | none => bucketFind (livePairs slots) k) ∧
      acc'.size = acc.size + (livePairs slots).length := by
  intro slots
  induction slots with
  | nil =>
    intro acc acc' hwfacc _ _ hrun
    rw [reinsertF_nil] at hrun
    have : acc = acc' := Option.some.inj hrun
    subst this
    refine ⟨hwfacc, rfl, le_refl _, ?_, by simp [livePairs]⟩
    intro k
    cases hx : findLive acc.buckets k <;> rfl
  | cons slot rest ih =>
    intro acc acc' hwfacc hnd hdisj hrun
    rw [reinsertF_cons] at hrun
    cases slot with
    | none =>
      simp only [Option.some_bind] at hrun
      have hlp : livePairs (none :: rest) = livePairs rest := rfl
      rw [hlp] at hnd hdisj ⊢
      exact ih acc acc' hwfacc hnd hdisj hrun
    | some e =>
      have hrun2 : (if e.is_tombstone = true then some acc
          else putF fuel acc e.key e.value).bind
          (fun a => reinsertF fuel rest a) = some acc' := hrun
      by_cases ht : e.is_tombstone
      · rw [if_pos ht] at hrun2
        simp only [Option.some_bind] at hrun2
        have hlp : livePairs (some e :: rest) = livePairs rest := by
          rw [livePairs, if_pos ht]
        rw [hlp] at hnd hdisj ⊢
        exact ih acc acc' hwfacc hnd hdisj hrun2
      · rw [if_neg ht] at hrun2
        obtain ⟨acc₁, hputeq, hrest⟩ := Option.bind_eq_some.mp hrun2
        have hlp : livePairs (some e :: rest) = (e.key, e.value) :: livePairs rest := by
          rw [livePairs, if_neg ht]
        rw [hlp] at hnd hdisj ⊢
        rw [List.map_cons, List.nodup_cons] at hnd
        have hheadfresh : findLive acc.buckets e.key = none :=
          hdisj (e.key, e.value) (List.mem_cons_self _ _)
        obtain ⟨hwf1, hhash1, hcap1, hself1, hother1, hfresh1, _⟩ :=
          hput acc e.key e.value acc₁ hwfacc hputeq
        have hdisj' : ∀ q ∈ livePairs rest, findLive acc₁.buckets q.1 = none := by
          intro q hq
          have hqne : q.1 ≠ e.key := by
            intro hqk
            exact hnd.1 (hqk ▸ List.mem_map.mpr ⟨q, hq, rfl⟩)
          rw [hother1 q.1 hqne]
          exact hdisj q (List.mem_cons_of_mem _ hq)
        obtain ⟨hwf', hhash', hcap', hfind', hsize'⟩ :=
          ih acc₁ acc' hwf1 hnd.2 hdisj' hrest
        refine ⟨hwf', by rw [hhash', hhash1], le_trans hcap1 hcap', ?_, ?_⟩
        · intro k
          by_cases hkk : k = e.key
          · rw [hkk, hfind' e.key, hself1, hheadfresh]
            show some e.value = bucketFind ((e.key, e.value) :: livePairs rest) e.key
            rw [bucketFind, if_pos (by simp)]
          · rw [hfind' k, hother1 k hkk]
            cases hx : findLive acc.buckets k with
            | some v => rfl
            | none =>
              show bucketFind (livePairs rest) k =
                bucketFind ((e.key, e.value) :: livePairs rest) k
              rw [bucketFind, if_neg (by simpa using fun h => hkk h.symm)]
        · rw [hsize', hfresh1 hheadfresh]
          simp only [List.length_cons]
          omega

theorem oa_put_resize_spec {V : Type} : ∀ fuel : Nat,
    (∀ (m : OAMap V) (k : String) (v : V) (m' : OAMap V),
      WFoa m → putF fuel m k v = some m' →
      WFoa m' ∧ m'.hash = m.hash ∧ m.capacity ≤ m'.capacity ∧
      findLive m'.buckets k = some v ∧
      (∀ k', k' ≠ k → findLive m'.buckets k' = findLive m.buckets k') ∧
      (findLive m.buckets k = none → m'.size = m.size + 1) ∧
      (findLive m.buckets k ≠ none → m'.size = m.size)) ∧
    (∀ (m : OAMap V) (n : Nat) (m' : OAMap V),
      WFoa m → resizeF fuel m n = some m' →
      WFoa m' ∧ m'.hash = m.hash ∧
      (∀ k, findLive m'.buckets k = findLive m.buckets k) ∧
      m'.size = m.size ∧
      (n < m.size → m' = m) ∧
      (m.size ≤ n → (if is_prime n then n else next_prime n) ≤ m'.capacity)) := by
  intro fuel
  induction fuel with
  | zero =>
    constructor
    · intro m k v m' _ h
      rw [putF_zero] at h
      simp at h
    · intro m n m' _ h
      rw [resizeF_zero] at h
      simp at h
  | succ fuel ih =>
    constructor
    · intro m k v m' hwf h
      rw [putF_succ] at h
      obtain ⟨m1, hm1, h2⟩ := Option.bind_eq_some.mp h
      obtain ⟨b, hb, h3⟩ := Option.bind_eq_some.mp h2
      have hm1facts : WFoa m1 ∧ m1.hash = m.hash ∧
          (∀ k', findLive m1.buckets k' = findLive m.buckets k') ∧
          m1.size = m.size ∧ m.capacity ≤ m1.capacity ∧ 2 * m1.size < m1.capacity := by
        by_cases htr : m.capacity ≤ 2 * m.size
        · rw [if_pos htr] at hm1
          obtain ⟨hwf1, hhash1, hfind1, hsize1, _, hcapge⟩ :=
            ih.2 m (2 * m.capacity) m1 hwf hm1
          have hcap2 := hwf.prime.two_le
          have hload := hwf.load
          have hnp : is_prime (2 * m.capacity) = false := by
            by_cases hx : is_prime (2 * m.capacity)
            · exfalso
              have hpr := (is_prime_iff _).mp hx
              rcases hpr.eq_one_or_self_of_dvd 2 ⟨m.capacity, rfl⟩ with h2' | h2' <;> omega
            · simpa using hx
          have hge := hcapge (by omega)
          rw [hnp] at hge
          simp only [Bool.false_eq_true, if_false] at hge
          have hnpge : 2 * m.capacity + 1 ≤ next_prime (2 * m.capacity) :=
            next_prime_gt_of_even _ (by omega)
          exact ⟨hwf1, hhash1, hfind1, hsize1, by omega, by omega⟩
        · rw [if_neg htr] at hm1
          have : m = m1 := Option.some.inj hm1
          subst this
          exact ⟨hwf, rfl, fun _ => rfl, rfl, le_refl _, by omega⟩
      obtain ⟨hwf1, hhash1, hfind1, hsize1, hcapge1, hstrict⟩ := hm1facts
      have hbiff := containsF_spec hwf1 k hb
      cases b with
      | true =>
        rw [if_pos rfl] at h3
        have hlive1 : findLive m1.buckets k ≠ none := hbiff.mp rfl
        cases hl1 : findLive m1.buckets k with
        | none => exact absurd hl1 hlive1
        | some w =>
          obtain ⟨c, e, hc, htomb, hk, hv⟩ := findLive_eq_some_of hl1
          obtain ⟨j₀, hj₀lt, hj₀eq, hj₀pre⟩ := probeOk_of_live hwf1 hc htomb hk
          have hm'eq := putOverLoop_char m1 k v (m1.hash k % m1.capacity)
            (by rw [hj₀eq]; exact hc) hk hj₀pre (fuel + 1) 0 m' (by omega) h3
          rw [hj₀eq] at hm'eq
          have hbuckets' : m'.buckets = m1.buckets.set c (some { e with value := v }) := by
            rw [hm'eq]
          have hsize' : m'.size = m1.size := by rw [hm'eq]
          have hcap' : m'.capacity = m1.capacity := by rw [hm'eq]
          have hhash' : m'.hash = m1.hash := by rw [hm'eq]
          have hlc := liveCount_set m1.buckets c (some { e with value := v }) hc
          have hw1 : liveWeight (some e) = 1 := by simp [liveWeight, htomb]
          have hw2 : liveWeight (some { e with value := v }) = 1 := by
            simp [liveWeight, htomb]
          have hwf' : WFoa m' := by
            refine ⟨?_, ?_, ?_, ?_, ?_, ?_⟩
            · rw [hbuckets', List.length_set, hcap']
              exact hwf1.len
            · rw [hcap']; exact hwf1.prime
            · rw [hsize', hbuckets']
              have := hwf1.sizeEq
              omega
            · rw [hsize', hcap']
              exact hwf1.load
            · rw [hbuckets', hcap', hhash']
              exact probeOk_set_same_key m1.hash m1.capacity m1.buckets c hc rfl
                (fun _ => htomb) hwf1.probeOk
            · rw [hbuckets']
              exact uniq_set_same_key m1.buckets c hc rfl (fun _ => htomb) hwf1.uniq
          have hfindk : findLive m'.buckets k = some v := by
            rw [hbuckets', ← hk]
            exact findLive_set_value m1.buckets c v hwf1.uniq hc htomb
          have hmk : findLive m.buckets k = some w := by rw [← hfind1 k]; exact hl1
          refine ⟨hwf', by rw [hhash', hhash1], le_trans hcapge1 (le_of_eq hcap'.symm),
            hfindk, ?_, ?_, ?_⟩
          · intro k' hk'
            rw [hbuckets']
            rw [findLive_set_untouched m1.buckets c _ k'
              (by
                intro e' he' ht'
                have : e' = { e with value := v } := by simpa using he'.symm
                subst this
                show e.key ≠ k'
                rw [hk]
                exact fun hx => hk' hx.symm)
              (by
                intro e₀ he₀ ht₀
                have : e₀ = e := by
                  rw [hc] at he₀
                  simpa using he₀.symm
                subst this
                rw [hk]
                exact fun hx => hk' hx.symm)]
            exact hfind1 k'
          · intro hmnone
            rw [hmnone] at hmk
            simp at hmk
          · intro _
            rw [hsize', hsize1]
      | false =>
        simp only [Bool.false_eq_true, if_false] at h3
        have hnone1 : findLive m1.buckets k = none := by
          cases hx : findLive m1.buckets k with
          | none => rfl
          | some w =>
            exfalso
            have : (false : Bool) = true := hbiff.mpr (by rw [hx]; simp)
            simp at this
        have hnokey := findLive_eq_none_iff.mp hnone1
        obtain ⟨j₀, _, hpre, hvac, hm'eq⟩ :=
          putInsLoop_char m1 k v (m1.hash k % m1.capacity) (fuel + 1) 0 m' h3
            (by intro t ht; omega)
        have hcappos1 : 0 < m1.capacity := wfoa_cappos hwf1
        have hj₀lt : j₀ < m1.capacity := by
          by_contra hge
          push_neg at hge
          have hmodlt : j₀ % m1.capacity < j₀ := by
            have := Nat.mod_lt j₀ hcappos1
            omega
          obtain ⟨e', he', ht'⟩ := hpre (j₀ % m1.capacity) hmodlt
          rw [probeIdx_mod hcappos1] at he'
          rcases hvac with hvn | ⟨e₀, he₀, ht₀⟩
          · rw [hvn] at he'
            simp at he'
          · rw [he₀] at he'
            have : e₀ = e' := by simpa using he'
            subst this
            rw [ht₀] at ht'
            simp at ht'
        set c := probeIdx (m1.hash k % m1.capacity) m1.capacity j₀ with hcdef
        have hclt : c < m1.capacity := by
          rw [hcdef]
          unfold probeIdx
          exact Nat.mod_lt _ hcappos1
        have hclen : c < m1.buckets.length := by rw [hwf1.len]; exact hclt
        have hbuckets' : m'.buckets = m1.buckets.set c (some ⟨k, v, false⟩) := by
          rw [hm'eq]
        have hsize' : m'.size = m1.size + 1 := by rw [hm'eq]
        have hcap' : m'.capacity = m1.capacity := by rw [hm'eq]
        have hhash' : m'.hash = m1.hash := by rw [hm'eq]
        have hvacweight : ∃ s, m1.buckets.get? c = some s ∧ liveWeight s = 0 := by
          rcases hvac with hvn | ⟨e₀, he₀, ht₀⟩
          · exact ⟨none, hvn, rfl⟩
          · exact ⟨some e₀, he₀, by simp [liveWeight, ht₀]⟩
        obtain ⟨s, hs, hws⟩ := hvacweight
        have hlc := liveCount_set m1.buckets c (some (⟨k, v, false⟩ : HashEntry V)) hs
        have hw1 : liveWeight (some (⟨k, v, false⟩ : HashEntry V)) = 1 := by
          simp [liveWeight]
        have hidxne : ∀ t < j₀, probeIdx (m1.hash k % m1.capacity) m1.capacity t ≠ c := by
          intro t htj hix
          obtain ⟨e', he', ht'⟩ := hpre t htj
          rw [hix, hs] at he'
          rcases hvac with hvn | ⟨e₀, he₀, ht₀⟩
          · rw [hvn] at hs
            have : s = none := by simpa using hs.symm
            subst this
            simp at he'
          · rw [he₀] at hs
            have : s = some e₀ := by simpa using hs.symm
            subst this
            have : e₀ = e' := by simpa using he'
            subst this
            rw [ht₀] at ht'
            simp at ht'
        have hwf' : WFoa m' := by
          refine ⟨?_, ?_, ?_, ?_, ?_, ?_⟩
          · rw [hbuckets', List.length_set, hcap']
            exact hwf1.len
          · rw [hcap']; exact hwf1.prime
          · rw [hsize', hbuckets']
            have := hwf1.sizeEq
            omega
          · rw [hsize', hcap']
            omega
          · rw [hbuckets', hcap', hhash']
            intro c' e' hc' ht'
            by_cases hcc : c' = c
            · subst hcc
              rw [List.get?_set_eq_of_lt _ hclen] at hc'
              have : e' = ⟨k, v, false⟩ := by simpa using hc'.symm
              subst this
              refine ⟨j₀, hj₀lt, hcdef.symm, ?_⟩
              intro t htj
              obtain ⟨e'', he'', ht''⟩ := hpre t htj
              rw [List.get?_set_ne _ _ (fun hx => (hidxne t htj) hx.symm)]
              exact ⟨e'', he'', hnokey _ e'' he'' ht''⟩
            · rw [List.get?_set_ne _ _ (fun hx => hcc hx.symm)] at hc'
              obtain ⟨j', hj'lt, hj'eq, hj'pre⟩ := hwf1.probeOk c' e' hc' ht'
              refine ⟨j', hj'lt, hj'eq, ?_⟩
              intro t htj
              obtain ⟨e'', he'', hne''⟩ := hj'pre t htj
              by_cases hix : probeIdx (m1.hash e'.key % m1.capacity) m1.capacity t = c
              · rw [hix, hs] at he''
                rcases hvac with hvn | ⟨e₀, he₀, ht₀⟩
                · rw [hvn] at hs
                  have : s = none := by simpa using hs.symm
                  subst this
                  simp at he''
                · rw [he₀] at hs
                  have : s = some e₀ := by simpa using hs.symm
                  subst this
                  have : e₀ = e'' := by simpa using he''
                  subst this
                  refine ⟨⟨k, v, false⟩, ?_, ?_⟩
                  · rw [hix]
                    exact List.get?_set_eq_of_lt _ hclen
                  · show k ≠ e'.key
                    exact fun hx => (hnokey c' e' hc' ht') hx.symm
              · rw [List.get?_set_ne _ _ (fun hx => hix hx.symm)]
                exact ⟨e'', he'', hne''⟩
          · rw [hbuckets']
            exact uniq_set_fresh m1.buckets c k v hnokey hwf1.uniq
        have hmk : findLive m.buckets k = none := by rw [← hfind1 k]; exact hnone1
        refine ⟨hwf', by rw [hhash', hhash1], le_trans hcapge1 (le_of_eq hcap'.symm),
          ?_, ?_, ?_, ?_⟩
        · rw [hbuckets']
          exact findLive_set_of_none m1.buckets c hclen k v hnone1
        · intro k' hk'
          rw [hbuckets']
          rw [findLive_set_untouched m1.buckets c _ k'
            (by
              intro e' he' ht'
              have : e' = ⟨k, v, false⟩ := by simpa using he'.symm
              subst this
              show k ≠ k'
              exact fun hx => hk' hx.symm)
            (by
              intro e₀ he₀ hlive₀
              rcases hvac with hvn | ⟨e₁, he₁, ht₁⟩
              · rw [hvn] at he₀
                simp at he₀
              · rw [he₁] at he₀
                have : e₁ = e₀ := by simpa using he₀
                subst this
                rw [ht₁] at hlive₀
                simp at hlive₀)]
          exact hfind1 k'
        · intro _
          rw [hsize', hsize1]
        · intro hne
          exact absurd hmk hne
    · intro m n m' hwf h
      rw [resizeF_succ] at h
      by_cases hlt : n < m.size
      · rw [if_pos hlt] at h
        have : m = m' := Option.some.inj h
        subst this
        exact ⟨hwf, rfl, fun _ => rfl, rfl, fun _ => rfl, fun hle => by omega⟩
      · rw [if_neg hlt] at h
        have hpprime : Nat.Prime (if is_prime n then n else next_prime n) := by
          by_cases hx : is_prime n
          · rw [if_pos hx]; exact (is_prime_iff n).mp hx
          · rw [if_neg hx]; exact next_prime_prime n
        have hwf0 : WFoa (⟨List.replicate (if is_prime n then n else next_prime n) none,
            (if is_prime n then n else next_prime n), 0, m.hash⟩ : OAMap V) := by
          refine ⟨List.length_replicate _ _, hpprime, ?_,
            (by show 2 * 0 ≤ (if is_prime n then n else next_prime n) + 1; omega), ?_, ?_⟩
          · show (0 : Nat) = liveCount (List.replicate _ none)
            rw [liveCount_replicate_none]
          · intro c e hc ht
            exact absurd hc (by intro hx; exact get?_replicate_none hx)
          · intro c₁ c₂ e₁ e₂ h1 h2 _ _ _
            exact absurd h1 (by intro hx; exact get?_replicate_none hx)
        obtain ⟨hwf', hhash', hcap', hfind', hsize'⟩ :=
          reinsertF_spec ih.1 m.buckets _ m' hwf0 (livePairs_nodup hwf.uniq)
            (by
              intro q _
              exact findLive_replicate_none _ _) h
        refine ⟨hwf', hhash', ?_, ?_, fun hltc => absurd hltc hlt, fun _ => ?_⟩
        · intro k
          rw [hfind' k]
          show (match findLive (List.replicate _ none) k with
            | some v => some v
            | none => bucketFind (livePairs m.buckets) k) = findLive m.buckets k
          rw [findLive_replicate_none]
          exact (findLive_eq_bucketFind_livePairs m.buckets k).symm
        · rw [hsize']
          show 0 + (livePairs m.buckets).length = m.size
          rw [Nat.zero_add, ← liveCount_eq_length_livePairs]
          exact hwf.sizeEq.symm
        · exact hcap'

/-! Shape lemmas for put when the load factor stays below one half: the
resize trigger does not fire, so capacity is unchanged and size grows by at
most one.  These need no well-formedness hypothesis. -/

theorem putOverLoop_shape {V : Type} (m : OAMap V) (k : String) (v : V) (i : Nat) :
    ∀ fuel j m', putOverLoop m k v i fuel j = some m' →
      m'.capacity = m.capacity ∧ m'.size = m.size ∧ m'.hash = m.hash := by
  intro fuel
  induction fuel with
  | zero =>
    intro j m' h
    rw [putOverLoop] at h
    simp at h
  | succ fuel ih =>
    intro j m' h
    cases hslot : m.buckets.get? (probeIdx i m.capacity j) with
    | none =>
      have hstep : putOverLoop m k v i (fuel + 1) j = none := by
        rw [putOverLoop, hslot]
      rw [hstep] at h
      simp at h
    | some s =>
      cases s with
      | none =>
        have hstep : putOverLoop m k v i (fuel + 1) j = none := by
          rw [putOverLoop, hslot]
        rw [hstep] at h
        simp at h
      | some e =>
        have hstep : putOverLoop m k v i (fuel + 1) j =
            (if e.key == k then
              some { m with buckets := m.buckets.set (probeIdx i m.capacity j) (some { e with value := v }) }
            else putOverLoop m k v i fuel (j + 1)) := by
          rw [putOverLoop, hslot]
        rw [hstep] at h
        by_cases hk : e.key == k
        · rw [if_pos hk] at h
          have heq := Option.some.inj h
          subst heq
          exact ⟨rfl, rfl, rfl⟩
        · rw [if_neg hk] at h
          exact ih (j + 1) m' h

theorem putInsLoop_shape {V : Type} (m : OAMap V) (k : String) (v : V) (i : Nat) :
    ∀ fuel j m', putInsLoop m k v i fuel j = some m' →
      m'.capacity = m.capacity ∧ m'.size = m.size + 1 ∧ m'.hash = m.hash := by
  intro fuel
  induction fuel with
  | zero =>
    intro j m' h
    rw [putInsLoop] at h
    simp at h
  | succ fuel ih =>
    intro j m' h
    cases hslot : m.buckets.get? (probeIdx i m.capacity j) with
    | none =>
      have hstep : putInsLoop m k v i (fuel + 1) j = none := by
        rw [putInsLoop, hslot]
      rw [hstep] at h
      simp at h
    | some s =>
      cases s with
      | none =>
        have hstep : putInsLoop m k v i (fuel + 1) j =
            some { m with
              buckets := m.buckets.set (probeIdx i m.capacity j) (some ⟨k, v, false⟩)
              size := m.size + 1 } := by
          rw [putInsLoop, hslot]
        rw [hstep] at h
        have heq := Option.some.inj h
        subst heq
        exact ⟨rfl, rfl, rfl⟩
      | some e =>
        have hstep : putInsLoop m k v i (fuel + 1) j =
            (if e.is_tombstone then
              some { m with
                buckets := m.buckets.set (probeIdx i m.capacity j) (some ⟨k, v, false⟩)
                size := m.size + 1 }
            else putInsLoop m k v i fuel (j + 1)) := by
          rw [putInsLoop, hslot]
        rw [hstep] at h
        by_cases ht : e.is_tombstone
        · rw [if_pos ht] at h
          have heq := Option.some.inj h
          subst heq
          exact ⟨rfl, rfl, rfl⟩
        · rw [if_neg ht] at h
          exact ih (j + 1) m' h

theorem putF_noresize {V : Type} (fuel : Nat) (m : OAMap V) (k : String) (v : V)
    (m' : OAMap V) (hload : 2 * m.size < m.capacity) :
    putF fuel m k v = some m' →
    m'.capacity = m.capacity ∧ m'.size ≤ m.size + 1 ∧ m'.hash = m.hash := by
  intro h
  cases fuel with
  | zero =>
    rw [putF_zero] at h
    simp at h
  | succ fuel =>
    rw [putF_succ] at h
    rw [if_neg (by omega)] at h
    simp only [Option.some_bind] at h
    obtain ⟨b, _, h2⟩ := Option.bind_eq_some.mp h
    cases b with
    | true =>
      rw [if_pos rfl] at h2
      obtain ⟨hc, hs, hh⟩ := putOverLoop_shape m k v _ _ _ m' h2
      exact ⟨hc, by omega, hh⟩
    | false =>
      simp only [Bool.false_eq_true, if_false] at h2
      obtain ⟨hc, hs, hh⟩ := putInsLoop_shape m k v _ _ _ m' h2
      exact ⟨hc, by omega, hh⟩

theorem reinsertF_nogrow {V : Type} (fuel : Nat) :
    ∀ (slots : List (Option (HashEntry V))) (acc acc' : OAMap V),
      2 * (acc.size + (livePairs slots).length) ≤ acc.capacity + 1 →
      reinsertF fuel slots acc = some acc' →
      acc'.capacity = acc.capacity ∧ acc'.size ≤ acc.size + (livePairs slots).length := by
  intro slots
  induction slots with
  | nil =>
    intro acc acc' _ h
    rw [reinsertF_nil] at h
    have heq : acc = acc' := Option.some.inj h
    subst heq
    exact ⟨rfl, by simp [livePairs]⟩
  | cons slot rest ih =>
    intro acc acc' hload h
    rw [reinsertF_cons] at h
    cases slot with
    | none =>
      simp only [Option.some_bind] at h
      have hlp : livePairs (none :: rest) = livePairs rest := rfl
      rw [hlp] at hload ⊢
      exact ih acc acc' hload h
    | some e =>
      have h2 : (if e.is_tombstone = true then some acc
          else putF fuel acc e.key e.value).bind
          (fun a => reinsertF fuel rest a) = some acc' := h
      by_cases ht : e.is_tombstone
      · rw [if_pos ht] at h2
        simp only [Option.some_bind] at h2
        have hlp : livePairs (some e :: rest) = livePairs rest := by
          rw [livePairs, if_pos ht]
        rw [hlp] at hload ⊢
        exact ih acc acc' hload h2
      · rw [if_neg ht] at h2
        obtain ⟨acc₁, hputeq, hrest⟩ := Option.bind_eq_some.mp h2
        have hlp : livePairs (some e :: rest) = (e.key, e.value) :: livePairs rest := by
          rw [livePairs, if_neg ht]
        rw [hlp] at hload ⊢
        simp only [List.length_cons] at hload ⊢
        obtain ⟨hc1, hs1, _⟩ :=
          putF_noresize fuel acc e.key e.value acc₁ (by omega) hputeq
        obtain ⟨hc2, hs2⟩ := ih acc₁ acc' (by rw [hc1]; omega) hrest
        exact ⟨by rw [hc2, hc1], by omega⟩

theorem resizeF_capacity_of_low_load {V : Type} (fuel : Nat) (m : OAMap V) (n : Nat)
    (m' : OAMap V) (hwf : WFoa m) (hle : m.size ≤ n)
    (hload : 2 * m.size ≤ (if is_prime n then n else next_prime n) + 1) :
    resizeF (fuel + 1) m n = some m' →
    m'.capacity = (if is_prime n then n else next_prime n) := by
  intro h
  rw [resizeF_succ] at h
  rw [if_neg (by omega)] at h
  have hlen : (livePairs m.buckets).length = m.size := by
    rw [← liveCount_eq_length_livePairs, ← hwf.sizeEq]
  obtain ⟨hc, _⟩ := reinsertF_nogrow fuel m.buckets _ m'
    (by
      show 2 * (0 + (livePairs m.buckets).length) ≤
        (if is_prime n then n else next_prime n) + 1
      rw [hlen]
      omega) h
  exact hc

/-! Well-formedness along executions of the probing table. -/

theorem clearOA_wf {V : Type} {m : OAMap V} (hwf : WFoa m) : WFoa (clearOA m) := by
  refine ⟨List.length_replicate _ _, hwf.prime, ?_, ?_, ?_, ?_⟩
  · show (0 : Nat) = liveCount (List.replicate m.capacity none)
    rw [liveCount_replicate_none]
  · show 2 * 0 ≤ m.capacity + 1
    omega
  · intro c e hc _
    exact absurd hc (by intro hx; exact get?_replicate_none hx)
  · intro c₁ c₂ e₁ e₂ h1 _ _ _ _
    exact absurd h1 (by intro hx; exact get?_replicate_none hx)

theorem initOA_wf {V : Type} (capacity : Nat) (hash : String → Nat) :
    WFoa (@initOA V capacity hash) := by
  refine ⟨List.length_replicate _ _, next_prime_prime _, ?_, ?_, ?_, ?_⟩
  · show (0 : Nat) = liveCount (List.replicate (next_prime capacity) none)
    rw [liveCount_replicate_none]
  · show 2 * 0 ≤ next_prime capacity + 1
    omega
  · intro c e hc _
    exact absurd hc (by intro hx; exact get?_replicate_none hx)
  · intro c₁ c₂ e₁ e₂ h1 _ _ _ _
    exact absurd h1 (by intro hx; exact get?_replicate_none hx)

theorem applyOA_wf {V : Type} {fuel : Nat} {m m' : OAMap V} (hwf : WFoa m) (op : Op V)
    (h : applyOA fuel m op = some m') : WFoa m' := by
  cases op with
  | put k v => exact ((oa_put_resize_spec fuel).1 m k v m' hwf h).1
  | remove k => exact (removeF_spec hwf k h).1
  | resize n => exact ((oa_put_resize_spec fuel).2 m n m' hwf h).1
  | clear =>
    have heq : clearOA m = m' := Option.some.inj h
    rw [← heq]
    exact clearOA_wf hwf

theorem execOA_nil {V : Type} (fuel : Nat) (m : OAMap V) :
    execOA fuel m [] = some m := rfl

theorem execOA_cons {V : Type} (fuel : Nat) (m : OAMap V) (op : Op V)
    (ops : List (Op V)) :
    execOA fuel m (op :: ops) =
      (applyOA fuel m op).bind (fun m1 => execOA fuel m1 ops) := by
  cases h : applyOA fuel m op <;>
    simp [execOA, List.foldlM_cons, h]

theorem execOA_wf {V : Type} (fuel : Nat) : ∀ (ops : List (Op V)) (m m' : OAMap V),
    WFoa m → execOA fuel m ops = some m' → WFoa m' := by
  intro ops
  induction ops with
  | nil =>
    intro m m' hwf h
    rw [execOA_nil] at h
    have heq : m = m' := Option.some.inj h
    exact heq ▸ hwf
  | cons op rest ih =>
    intro m m' hwf h
    rw [execOA_cons] at h
    obtain ⟨m1, h1, h2⟩ := Option.bind_eq_some.mp h
    exact ih m1 m' (applyOA_wf hwf op h1) h2

theorem ReachOA_wf {V : Type} {m : OAMap V} (h : ReachOA m) : WFoa m := by
  obtain ⟨capacity, hash, ops, fuel, hexec⟩ := h
  exact execOA_wf fuel ops _ m (initOA_wf capacity hash) hexec

/-! Tracking a single key through a sequence of operations on either table:
once put(k, v) has run, every later operation that is not a put on k either
keeps the stored value v or removes the key entirely. -/

theorem execSC_get_track {V : Type} : ∀ (post : List (Op V)) (m : SCMap V), WFsc m →
    ∀ (k : String) (v : V), (∀ v', Op.put k v' ∉ post) →
    (getSC m k = some v ∨ getSC m k = none) →
    (getSC (execSC m post) k = some v ∨ getSC (execSC m post) k = none) := by
  intro post
  induction post with
  | nil => intro m _ k v _ h; exact h
  | cons op rest ih =>
    intro m hwf k v hpost h
    rw [execSC, List.foldl_cons]
    refine ih _ (applySC_wf hwf op) k v
      (fun v' hmem => hpost v' (List.mem_cons_of_mem _ hmem)) ?_
    exact applySC_get_track hwf op
      (fun v' he => hpost v' (he ▸ List.mem_cons_self _ _)) h

theorem applyOA_find_track {V : Type} {fuel : Nat} {m m' : OAMap V} (hwf : WFoa m)
    {k : String} {v : V} (op : Op V) (hop : ∀ v', op ≠ Op.put k v')
    (h : applyOA fuel m op = some m')
    (htr : findLive m.buckets k = some v ∨ findLive m.buckets k = none) :
    findLive m'.buckets k = some v ∨ findLive m'.buckets k = none := by
  cases op with
  | put k' v' =>
    have hk : k ≠ k' := fun he => hop v' (by rw [he])
    have hspec := (oa_put_resize_spec fuel).1 m k' v' m' hwf h
    rw [hspec.2.2.2.2.1 k hk]
    exact htr
  | remove k' =>
    by_cases hkk : k = k'
    · subst hkk
      right
      exact (removeF_spec hwf k h).2.2.2.1
    · rw [(removeF_spec hwf k' h).2.2.2.2.1 k hkk]
      exact htr
  | resize n =>
    have hspec := (oa_put_resize_spec fuel).2 m n m' hwf h
    rw [hspec.2.2.1 k]
    exact htr
  | clear =>
    have heq : clearOA m = m' := Option.some.inj h
    right
    rw [← heq]
    show findLive (List.replicate m.capacity none) k = none
    exact findLive_replicate_none _ _

theorem execOA_find_track {V : Type} (fuel : Nat) :
    ∀ (post : List (Op V)) (m m' : OAMap V), WFoa m → execOA fuel m post = some m' →
    ∀ (k : String) (v : V), (∀ v', Op.put k v' ∉ post) →
    (findLive m.buckets k = some v ∨ findLive m.buckets k = none) →
    (findLive m'.buckets k = some v ∨ findLive m'.buckets k = none) := by
  intro post
  induction post with
  | nil =>
    intro m m' _ h k v _ htr
    rw [execOA_nil] at h
    have heq : m = m' := Option.some.inj h
    exact heq ▸ htr
  | cons op rest ih =>
    intro m m' hwf h k v hpost htr
    rw [execOA_cons] at h
    obtain ⟨m1, h1, h2⟩ := Option.bind_eq_some.mp h
    refine ih m1 m' (applyOA_wf hwf op h1) h2 k v
      (fun v' hmem => hpost v' (List.mem_cons_of_mem _ hmem)) ?_
    exact applyOA_find_track hwf op
      (fun v' he => hpost v' (he ▸ List.mem_cons_self _ _)) h1 htr

/-! Rational load-factor bridges. -/

theorem load_bound_rat (s c : Nat) (hc : 0 < c) (h : 2 * s ≤ c + 1) :
    (s : ℚ) / (c : ℚ) ≤ 1 / 2 + 1 / (2 * (c : ℚ)) := by
  have hcq : (0 : ℚ) < (c : ℚ) := by exact_mod_cast hc
  have hsq : (s : ℚ) * 2 ≤ (c : ℚ) + 1 := by
    have hx : ((2 * s : ℕ) : ℚ) ≤ ((c + 1 : ℕ) : ℚ) := by exact_mod_cast h
    push_cast at hx
    linarith
  have heq : 1 / 2 + 1 / (2 * (c : ℚ)) = ((c : ℚ) + 1) / (2 * (c : ℚ)) := by
    field_simp
  rw [heq, div_le_div_iff hcq (by positivity)]
  nlinarith

theorem load_le_one_rat (s c : Nat) (hc : 0 < c) (h : s ≤ c) :
    (s : ℚ) / (c : ℚ) ≤ 1 := by
  have hcq : (0 : ℚ) < (c : ℚ) := by exact_mod_cast hc
  rw [div_le_one hcq]
  exact_mod_cast h

/-! The probing trap: in the reachable capacity 5 table c2st, the occupied
slots 0, 1 and 4 are exactly the image of the quadratic probe sequence of
index 0, since j * j mod 5 only takes the values 0, 1 and 4.  A lookup of
the absent key "d" (hash 0) therefore never meets an empty slot and loops
forever, for any amount of fuel. -/

theorem c2loop : ∀ fuel j, getLoop c2st "d" 0 fuel j = none := by
  intro fuel
  induction fuel with
  | zero => intro j; rfl
  | succ n ih =>
    intro j
    have hmod : j % 5 < 5 := Nat.mod_lt _ (by norm_num)
    have hsq : (0 + j * j) % 5 = (j % 5) * (j % 5) % 5 := by
      rw [Nat.zero_add, Nat.mul_mod]
    have hcase : j * j % 5 = 0 ∨ j * j % 5 = 1 ∨ j * j % 5 = 4 := by
      rw [Nat.zero_add] at hsq
      rw [hsq]
      interval_cases h : j % 5 <;> simp
    rw [getLoop]
    simp only [probeIdx, Nat.zero_add]
    rw [show c2st.capacity = 5 from rfl]
    rcases hcase with h | h | h <;> rw [h]
    · rw [show c2st.buckets.get? 0 = some (some ⟨"a", 1, false⟩) from rfl]
      simp [ih]
    · rw [show c2st.buckets.get? 1 = some (some ⟨"b", 2, false⟩) from rfl]
      simp [ih]
    · rw [show c2st.buckets.get? 4 = some (some ⟨"c", 3, false⟩) from rfl]
      simp [ih]

/-! The claims. -/

/-- C1: round-trip.  For either table and any operation sequence containing
put(k, v) with no later put for k, get(k) returns the last value written for
k, for every key still in the table, regardless of intervening resizes.  For
the chaining table this holds whenever contains_key(k) still reports true at
the end; for the probing table whenever k still holds a live slot. -/
theorem c1_round_trip {V : Type} (k : String) (v : V) (post : List (Op V))
    (hpost : ∀ v', Op.put k v' ∉ post) :
    (∀ m : SCMap V, ReachSC m →
      contains_keySC (execSC (putSC m k v) post) k = true →
      getSC (execSC (putSC m k v) post) k = some v) ∧
    (∀ (fuel fuel2 : Nat) (mo m1 m2 : OAMap V), ReachOA mo →
      putF fuel mo k v = some m1 → execOA fuel2 m1 post = some m2 →
      findLive m2.buckets k ≠ none →
      getF m2.capacity m2 k = some (some v)) := by
  constructor
  · intro m hm hcont
    have hwf := ReachSC_wf hm
    have hput := putSC_spec hwf k v
    have htr := execSC_get_track post _ hput.1 k v hpost (Or.inl hput.2.1)
    rcases htr with h | h
    · exact h
    · rw [contains_keySC_eq, h] at hcont
      simp at hcont
  · intro fuel fuel2 mo m1 m2 hmo hput hexec hne
    have hwfo := ReachOA_wf hmo
    have hputs := (oa_put_resize_spec fuel).1 mo k v m1 hwfo hput
    have hwf2 := execOA_wf fuel2 post m1 m2 hputs.1 hexec
    have htr := execOA_find_track fuel2 post m1 m2 hputs.1 hexec k v hpost
      (Or.inl hputs.2.2.2.1)
    rcases htr with h | h
    · exact getF_run hwf2 h
    · exact absurd h hne

/-- Witness for C1 at concrete inputs on both tables. -/
theorem c1_round_trip_witness :
    getSC (execSC (putSC (initSC 3 h3) "a" (7 : Nat)) []) "a" = some 7 ∧
    getF st6oa.capacity st6oa "k5" = some (some 5) := by
  constructor
  · exact (c1_round_trip "a" 7 [] (by simp)).1 (initSC 3 h3) ⟨3, h3, [], rfl⟩ (by decide)
  · exact (c1_round_trip "k5" (5 : Nat) [] (by simp)).2 30 1 st5oa st6oa st6oa
      ⟨11, hMod, opsPut5, 30, rfl⟩ rfl rfl (by decide)

/-- C2: refuted — the probing table can diverge.  The state c2st is reachable
by three puts on a capacity five table and is only 60 percent full, yet the
probe sequence of the absent key d (hash 0) visits only the occupied slots
0, 1 and 4 (the quadratic residues of 5), never an empty slot, so get(d)
exhausts any amount of fuel: the source loop runs forever.  Resizing does
not prevent this; it happens strictly below 100 percent occupancy. -/
theorem c2_probe_divergence :
    ReachOA c2st ∧ c2st.size < c2st.capacity ∧
    ∀ fuel, getF fuel c2st "d" = none :=
  ⟨⟨5, h5, c2ops, 30, rfl⟩, by decide, fun fuel => c2loop fuel 0⟩

/-- C3: chaining put semantics.  put(k, v) stores v under k; if k was
already present the size is unchanged, otherwise it grows by one. -/
theorem c3_chained_put {V : Type} {m : SCMap V} (hm : ReachSC m) (k : String) (v : V) :
    getSC (putSC m k v) k = some v ∧
    (contains_keySC m k = true → (putSC m k v).size = m.size) ∧
    (contains_keySC m k = false → (putSC m k v).size = m.size + 1) := by
  have hwf := ReachSC_wf hm
  have h := putSC_spec hwf k v
  refine ⟨h.2.1, ?_, ?_⟩
  · intro hc
    rw [contains_keySC_eq] at hc
    exact h.2.2.2.1 hc
  · intro hc
    rw [contains_keySC_eq] at hc
    cases hget : getSC m k with
    | some w => rw [hget] at hc; simp at hc
    | none => exact h.2.2.2.2.1 hget

/-- Witness for C3: the overwrite scenario put(a, 1); put(a, 2) leaves
get(a) = 2 and size = 1. -/
theorem c3_chained_put_witness :
    getSC (putSC (putSC (initSC 3 h3) "a" (1 : Nat)) "a" 2) "a" = some 2 ∧
    contains_keySC (putSC (initSC 3 h3) "a" (1 : Nat)) "a" = true ∧
    (putSC (putSC (initSC 3 h3) "a" (1 : Nat)) "a" 2).size = 1 := by
  have h := @c3_chained_put Nat (putSC (initSC 3 h3) "a" 1)
    ⟨3, h3, [Op.put "a" 1], rfl⟩ "a" 2
  refine ⟨h.1, by decide, ?_⟩
  rw [h.2.1 (by decide)]
  decide

/-- C4 (corrected): after a successful put on a reachable probing table the
load factor need not be below one half; the tight bound the code keeps is
2 * size <= capacity + 1, that is, load <= 1/2 + 1/(2 * capacity). -/
theorem c4_put_load_bound {V : Type} {fuel : Nat} {m m' : OAMap V} (hm : ReachOA m)
    (k : String) (v : V) (h : putF fuel m k v = some m') :
    2 * m'.size ≤ m'.capacity + 1 ∧
    table_loadOA m' ≤ 1 / 2 + 1 / (2 * (m'.capacity : ℚ)) := by
  have hwf := ReachOA_wf hm
  have hput := (oa_put_resize_spec fuel).1 m k v m' hwf h
  have hload := hput.1.load
  refine ⟨hload, ?_⟩
  show ((m'.size : ℚ)) / ((m'.capacity : ℚ)) ≤ 1 / 2 + 1 / (2 * (m'.capacity : ℚ))
  exact load_bound_rat m'.size m'.capacity (wfoa_cappos hput.1) hload

/-- Witness for C4 at the concrete put reaching load 6/11. -/
theorem c4_put_load_bound_witness :
    2 * st6oa.size ≤ st6oa.capacity + 1 ∧
    table_loadOA st6oa ≤ 1 / 2 + 1 / (2 * (st6oa.capacity : ℚ)) :=
  @c4_put_load_bound Nat 30 st5oa st6oa ⟨11, hMod, opsPut5, 30, rfl⟩ "k5" 5 rfl

/-- Counterexample to the claimed strict bound of C4: the reachable table
st5oa holds five entries in eleven slots; put(k5, 5) returns with six of
eleven slots full, and 6/11 is not below 1/2. -/
theorem c4_counterexample :
    ReachOA st5oa ∧ putF 30 st5oa "k5" (5 : Nat) = some st6oa ∧
    ¬ table_loadOA st6oa < 1 / 2 := by
  refine ⟨⟨11, hMod, opsPut5, 30, rfl⟩, rfl, ?_⟩
  have h1 : table_loadOA st6oa = ((6 : Nat) : ℚ) / ((11 : Nat) : ℚ) := rfl
  rw [h1]
  norm_num

/-- C5: resize preserves content on both tables.  For the chaining table and
any target of at least 1, get and contains_key are unchanged on every key;
for the probing table and any target of at least size, every live binding is
unchanged and get still returns the pre-resize value of every live key. -/
theorem c5_resize_preserves_content {V : Type} :
    (∀ (m : SCMap V) (n : Nat), ReachSC m → 1 ≤ n →
      (∀ k, getSC (resizeSC m n) k = getSC m k) ∧
      (∀ k, contains_keySC (resizeSC m n) k = contains_keySC m k)) ∧
    (∀ (fuel : Nat) (m m' : OAMap V) (n : Nat), ReachOA m → m.size ≤ n →
      resizeF fuel m n = some m' →
      (∀ k, findLive m'.buckets k = findLive m.buckets k) ∧
      (∀ k v, findLive m.buckets k = some v →
        getF m'.capacity m' k = some (some v))) := by
  constructor
  · intro m n hm hn
    have hwf := ReachSC_wf hm
    have h := resizeSC_spec hwf hn
    exact ⟨h.2.1, fun k => by rw [contains_keySC_eq, contains_keySC_eq, h.2.1 k]⟩
  · intro fuel m m' n hm hle h
    have hwf := ReachOA_wf hm
    have hs := (oa_put_resize_spec fuel).2 m n m' hwf h
    refine ⟨hs.2.2.1, ?_⟩
    intro k v hk
    apply getF_run hs.1
    rw [hs.2.2.1 k]
    exact hk

/-- Witness for C5: a chaining resize to 7 and the probing resize of st5oa
to 23, both keeping their stored entries. -/
theorem c5_resize_preserves_content_witness :
    getSC (resizeSC c7st 7) "a" = getSC c7st "a" ∧
    contains_keySC (resizeSC c7st 7) "a" = contains_keySC c7st "a" ∧
    findLive st23oa.buckets "k0" = findLive st5oa.buckets "k0" ∧
    getF st23oa.capacity st23oa "k0" = some (some 0) := by
  have h1 := (@c5_resize_preserves_content Nat).1 c7st 7 ⟨3, h3, c7ops, rfl⟩ (by omega)
  have h2 := (@c5_resize_preserves_content Nat).2 30 st5oa st23oa 23
    ⟨11, hMod, opsPut5, 30, rfl⟩ (by decide) rfl
  exact ⟨h1.1 "a", h1.2 "a", h2.1 "k0", h2.2 "k0" 0 rfl⟩

/-- C6 (corrected): probing resize normalizes the capacity to N when N is
prime and to the next prime above N otherwise, with no further adjustment —
but only when the re-insertion cannot itself trigger a nested resize, that
is, when 2 * size stays at most the normalized prime plus one.  Without that
proviso the rebuild calls the public put, which may resize again. -/
theorem c6_resize_capacity {V : Type} {fuel : Nat} {m m' : OAMap V} {n : Nat}
    (hm : ReachOA m) (hle : m.size ≤ n)
    (hload : 2 * m.size ≤ (if is_prime n then n else next_prime n) + 1)
    (h : resizeF (fuel + 1) m n = some m') :
    m'.capacity = (if is_prime n then n else next_prime n) :=
  resizeF_capacity_of_low_load fuel m n m' (ReachOA_wf hm) hle hload h

/-- Witness for C6: resizing the five-entry table st5oa to the prime 23
lands exactly on capacity 23. -/
theorem c6_resize_capacity_witness :
    st5oa.size ≤ 23 ∧
    2 * st5oa.size ≤ (if is_prime 23 then 23 else next_prime 23) + 1 ∧
    st23oa.capacity = (if is_prime 23 then 23 else next_prime 23) :=
  ⟨by decide, by decide, @c6_resize_capacity Nat 29 st5oa st23oa 23
    ⟨11, hMod, opsPut5, 30, rfl⟩ (by decide) (by decide) rfl⟩

/-- Counterexample to C6 as stated: st5oa is reachable with five entries in
eleven slots; resize_table(5) with the prime target 5 does not end at
capacity 5 — the rebuild re-resizes through put and the table ends at
capacity 11. -/
theorem c6_counterexample :
    ReachOA st5oa ∧ st5oa.size ≤ 5 ∧ (if is_prime 5 then 5 else next_prime 5) = 5 ∧
    resizeF 30 st5oa 5 = some st5oa ∧ st5oa.capacity ≠ 5 :=
  ⟨⟨11, hMod, opsPut5, 30, rfl⟩, by decide, by decide, rfl, by decide⟩

/-- C7 (corrected): after a put on a reachable chaining table the load
factor is at most 1, but not necessarily strictly below 1. -/
theorem c7_chained_put_load_bound {V : Type} {m : SCMap V} (hm : ReachSC m)
    (k : String) (v : V) : table_loadSC (putSC m k v) ≤ 1 := by
  have hwf := ReachSC_wf hm
  have h := putSC_spec hwf k v
  show ((sumLen (putSC m k v).buckets : ℚ)) / (((putSC m k v).capacity : ℚ)) ≤ 1
  exact load_le_one_rat _ _ h.1.prime.pos h.2.2.2.2.2.2

/-- Witness for C7 at a concrete put. -/
theorem c7_chained_put_load_bound_witness :
    table_loadSC (putSC (initSC 3 h3) "a" (1 : Nat)) ≤ 1 :=
  @c7_chained_put_load_bound Nat (initSC 3 h3) ⟨3, h3, [], rfl⟩ "a" 1

/-- Counterexample to the strict bound of C7: three puts on a capacity 3
chaining table end with the last put returning at load exactly 1. -/
theorem c7_counterexample :
    ReachSC (putSC (execSC (initSC 3 h3) [Op.put "a" (1 : Nat), Op.put "b" 2]) "c" 3) ∧
    putSC (execSC (initSC 3 h3) [Op.put "a" (1 : Nat), Op.put "b" 2]) "c" 3 = c7st ∧
    ¬ table_loadSC c7st < 1 := by
  refine ⟨⟨3, h3, c7ops, rfl⟩, rfl, ?_⟩
  have h1 : table_loadSC c7st = ((3 : Nat) : ℚ) / ((3 : Nat) : ℚ) := rfl
  rw [h1]
  norm_num

/-- C8: on every reachable state of either table, size is between 0 and
capacity and the capacity is prime. -/
theorem c8_size_capacity_prime {V : Type} :
    (∀ m : SCMap V, ReachSC m → m.size ≤ m.capacity ∧ Nat.Prime m.capacity) ∧
    (∀ m : OAMap V, ReachOA m → m.size ≤ m.capacity ∧ Nat.Prime m.capacity) := by
  constructor
  · intro m hm
    have hwf := ReachSC_wf hm
    exact ⟨hwf.sizeLe, hwf.prime⟩
  · intro m hm
    have hwf := ReachOA_wf hm
    have h1 := hwf.load
    have h2 := hwf.prime.two_le
    exact ⟨by omega, hwf.prime⟩

/-- Witness for C8 on the concrete reachable states c7st and st5oa. -/
theorem c8_size_capacity_prime_witness :
    (c7st.size ≤ c7st.capacity ∧ Nat.Prime c7st.capacity) ∧
    (st5oa.size ≤ st5oa.capacity ∧ Nat.Prime st5oa.capacity) :=
  ⟨(@c8_size_capacity_prime Nat).1 c7st ⟨3, h3, c7ops, rfl⟩,
    (@c8_size_capacity_prime Nat).2 st5oa ⟨11, hMod, opsPut5, 30, rfl⟩⟩

/-- C9: an invalid resize target is a silent no-op on both tables: for the
chaining table any target below 1, for the probing table any target below
size, leaves the state — entries, size and capacity — exactly as it was. -/
theorem c9_invalid_resize_noop {V : Type} :
    (∀ (m : SCMap V) (n : Nat), n < 1 → resizeSC m n = m) ∧
    (∀ (fuel : Nat) (m : OAMap V) (n : Nat), n < m.size →
      resizeF (fuel + 1) m n = some m) := by
  constructor
  · intro m n hn
    rw [resizeSC, if_pos hn]
  · intro fuel m n hn
    rw [resizeF_succ, if_pos hn]

/-- Witness for C9, with the probing scenario size = 5, resize(3). -/
theorem c9_invalid_resize_noop_witness :
    resizeSC c7st 0 = c7st ∧ (3 : Nat) < st5oa.size ∧
    resizeF 30 st5oa 3 = some st5oa :=
  ⟨(@c9_invalid_resize_noop Nat).1 c7st 0 (by omega), by decide,
    (@c9_invalid_resize_noop Nat).2 29 st5oa 3 (by decide)⟩

/-- C10: the implicit probing well-formedness invariant holds in every
reachable state: keys occupy at most one live slot, every live entry sits on
its own probe sequence with all earlier probe slots occupied by entries of
other keys (so no empty slot precedes it), and consequently contains_key and
get, run with fuel capacity, find every live key. -/
theorem c10_probe_wf_invariant {V : Type} {m : OAMap V} (hm : ReachOA m) :
    UniqKeys m.buckets ∧
    (∀ c e, m.buckets.get? c = some (some e) → e.is_tombstone = false →
      ∃ j < m.capacity, probeIdx (m.hash e.key % m.capacity) m.capacity j = c ∧
        ∀ j' < j, ∃ e', m.buckets.get?
          (probeIdx (m.hash e.key % m.capacity) m.capacity j') = some (some e') ∧
          e'.key ≠ e.key) ∧
    (∀ k v, findLive m.buckets k = some v →
      containsF m.capacity m k = some true ∧ getF m.capacity m k = some (some v)) := by
  have hwf := ReachOA_wf hm
  exact ⟨hwf.uniq, hwf.probeOk, fun k v h => ⟨containsF_run hwf h, getF_run hwf h⟩⟩

/-- Witness for C10 on the concrete reachable state st5oa. -/
theorem c10_probe_wf_invariant_witness :
    UniqKeys st5oa.buckets ∧
    containsF st5oa.capacity st5oa "k0" = some true ∧
    getF st5oa.capacity st5oa "k0" = some (some 0) := by
  have h := @c10_probe_wf_invariant Nat st5oa ⟨11, hMod, opsPut5, 30, rfl⟩
  have h3 := h.2.2 "k0" 0 rfl
  exact ⟨h.1, h3.1, h3.2⟩

end HMV
